import Mathlib

/-!
Shallow embedding of the Shannon stream cipher engine (src/src/index.ts).

32-bit words are modelled as natural numbers: a JavaScript Int32Array cell
holds a 32-bit pattern, modelled here by its unsigned residue mod 2^32.
Bitwise xor, or and shifts act identically on signed patterns and on these
residues.  The JavaScript arithmetic right shift of a stored word is
modelled by shr32s, which fills the high bits when bit 31 of the pattern is
set; shift counts are reduced mod 32 as JavaScript does.  Byte buffers
(Uint8Array) are lists of naturals; every cell access is reduced mod 256,
the store/read semantics of a typed byte array.
-/

namespace ShannonES

/-- Register length, from the source. -/
def N : Nat := 16

/-- How many iterations of folding to do. -/
def FOLD : Nat := N

/-- Value of konst to use during key loading. -/
def INITKONST : Nat := 0x6996c53a

/-- Where to insert key/MAC/counter words. -/
def KEYP : Nat := 13

/-- JavaScript 32-bit left shift: the count is masked by 31 and the result
truncated to 32 bits. -/
def shl32 (w s : Nat) : Nat := ((w % 2 ^ 32) <<< (s % 32)) % 2 ^ 32

/-- JavaScript arithmetic right shift of a 32-bit pattern: when bit 31 of
the pattern is set the vacated high bits are filled with ones. -/
def shr32s (w s : Nat) : Nat :=
  if w % 2 ^ 32 < 2 ^ 31 then (w % 2 ^ 32) >>> (s % 32)
  else (w % 2 ^ 32) >>> (s % 32) + (2 ^ 32 - 2 ^ (32 - s % 32))

/-- rotateLeft from the source: (i << distance) | (i >>> -distance).
The unsigned right shift count (-distance) is masked by 31, giving
(32 - distance % 32) % 32. -/
def rotateLeft (i distance : Nat) : Nat :=
  shl32 i distance ||| ((i % 2 ^ 32) >>> ((32 - distance % 32) % 32))

/-- Nonlinear transform (sbox) of a word, first combination. -/
def sbox (i : Nat) : Nat :=
  let i := i ^^^ (rotateLeft i 5 ||| rotateLeft i 7)
  let i := i ^^^ (rotateLeft i 19 ||| rotateLeft i 22)
  i

/-- Nonlinear transform (sbox) of a word, second combination. -/
def sbox2 (i : Nat) : Nat :=
  let i := i ^^^ (rotateLeft i 7 ||| rotateLeft i 22)
  let i := i ^^^ (rotateLeft i 5 ||| rotateLeft i 19)
  i

/-- Little-endian word assembly
((b[3]&0xFF)<<24)|((b[2]&0xFF)<<16)|((b[1]&0xFF)<<8)|(b[0]&0xFF),
the expression repeated verbatim in loadKey, macOnly, encrypt and decrypt. -/
def toWord (b0 b1 b2 b3 : Nat) : Nat :=
  (((b3 % 256) <<< 24 ||| (b2 % 256) <<< 16) ||| (b1 % 256) <<< 8) ||| (b0 % 256)

/-- The cipher state: shift register R, CRC accumulation register,
saved register contents initR, key dependant semi-constant konst,
encryption buffer sbuf, MAC partial-word buffer mbuf and the number nbuf
of buffered part-word stream bits. -/
structure Shannon where
  R : List Nat
  CRC : List Nat
  initR : List Nat
  konst : Nat
  sbuf : Nat
  mbuf : Nat
  nbuf : Nat
deriving Repr, DecidableEq

/-- A freshly constructed engine: all typed-array cells and numeric fields
are zero-initialized. -/
def Shannon.new : Shannon :=
  { R := List.replicate N 0, CRC := List.replicate N 0, initR := List.replicate N 0,
    konst := 0, sbuf := 0, mbuf := 0, nbuf := 0 }

/-- Cycle the contents of the register and calculate output word in sbuf. -/
def Shannon.cycle (s : Shannon) : Shannon :=
  let t := sbox (s.R.getD 12 0 ^^^ s.R.getD 13 0 ^^^ s.konst) ^^^ rotateLeft (s.R.getD 0 0) 1
  let R1 := s.R.drop 1 ++ [t]
  let t2 := sbox2 (R1.getD 2 0 ^^^ R1.getD 15 0)
  let R2 := R1.set 0 (R1.getD 0 0 ^^^ t2)
  { s with R := R2, sbuf := t2 ^^^ R2.getD 8 0 ^^^ R2.getD 12 0 }

/-- Accumulate a CRC of input words: the register shifts down one slot and
the new top word is CRC[0] ^ CRC[2] ^ CRC[15] ^ i. -/
def Shannon.crcFunc (s : Shannon) (i : Nat) : Shannon :=
  let t := s.CRC.getD 0 0 ^^^ s.CRC.getD 2 0 ^^^ s.CRC.getD 15 0 ^^^ (i % 2 ^ 32)
  { s with CRC := s.CRC.drop 1 ++ [t] }

/-- Normal MAC word processing: do both stream register and CRC. -/
def Shannon.macFunc (s : Shannon) (i : Nat) : Shannon :=
  let s1 := s.crcFunc i
  { s1 with R := s1.R.set KEYP (s1.R.getD KEYP 0 ^^^ (i % 2 ^ 32)) }

/-- R[0]=R[1]=1 and R[i]=R[i-1]+R[i-2] (32-bit wraparound addition),
produced as a seeded list of the requested length. -/
def fibFill (a b : Nat) : Nat → List Nat
  | 0 => []
  | n + 1 => a :: fibFill b ((a + b) % 2 ^ 32) n

/-- Initialize to known state: register R holds Fibonacci numbers and
konst is the initialization constant. -/
def Shannon.initState (s : Shannon) : Shannon :=
  { s with R := fibFill 1 1 N, konst := INITKONST }

/-- Save the current register state. -/
def Shannon.saveState (s : Shannon) : Shannon :=
  { s with initR := s.R }

/-- Initialize to previously saved register state. -/
def Shannon.reloadState (s : Shannon) : Shannon :=
  { s with R := s.initR }

/-- Initialize konst from R[0]. -/
def Shannon.genKonst (s : Shannon) : Shannon :=
  { s with konst := s.R.getD 0 0 }

/-- Load key material into the register: R[KEYP] ^= k. -/
def Shannon.addKey (s : Shannon) (k : Nat) : Shannon :=
  { s with R := s.R.set KEYP (s.R.getD KEYP 0 ^^^ (k % 2 ^ 32)) }

/-- Extra nonlinear diffusion of register for key and MAC: FOLD cycles. -/
def Shannon.diffuse (s : Shannon) : Shannon :=
  Shannon.cycle^[FOLD] s

/-- The loop of loadKey folding whole 4-byte words of key material;
returns the remaining (at most 3) trailing bytes. -/
def Shannon.loadKeyWords : Shannon → List Nat → Shannon × List Nat
  | s, b0 :: b1 :: b2 :: b3 :: rest => Shannon.loadKeyWords ((s.addKey (toWord b0 b1 b2 b3)).cycle) rest
  | s, rest => (s, rest)

/-- Common actions for loading key material: fold whole words, zero pad a
partial trailing word, fold in the byte length, snapshot the register into
CRC, diffuse, and xor the snapshot back. -/
def Shannon.loadKey (s : Shannon) (k : List Nat) : Shannon :=
  let w := Shannon.loadKeyWords s k
  let s2 :=
    match w.2 with
    | [] => w.1
    | [a] => ((w.1.addKey (toWord a 0 0 0)).cycle)
    | [a, b] => ((w.1.addKey (toWord a b 0 0)).cycle)
    | [a, b, c] => ((w.1.addKey (toWord a b c 0)).cycle)
    | _ :: _ :: _ :: _ :: _ => w.1  -- unreachable: loadKeyWords leaves at most 3 bytes
  let s3 := (s2.addKey k.length).cycle
  let s4 := { s3 with CRC := s3.R }
  let s5 := s4.diffuse
  { s5 with R := List.zipWith (· ^^^ ·) s5.R s5.CRC }

/-- Set key. -/
def Shannon.key (s : Shannon) (k : List Nat) : Shannon :=
  let s1 := s.initState
  let s2 := s1.loadKey k
  let s3 := s2.genKonst
  let s4 := s3.saveState
  { s4 with nbuf := 0 }

/-- Set IV. -/
def Shannon.nonce (s : Shannon) (iv : List Nat) : Shannon :=
  let s1 := s.reloadState
  let s2 := { s1 with konst := INITKONST }
  let s3 := s2.loadKey iv
  let s4 := s3.genKonst
  { s4 with nbuf := 0 }

/-- nonce32: split the 32-bit value into 4 big-endian bytes and call nonce.
The source uses the arithmetic right shift, whose low byte agrees with the
logical one after the & 0xFF mask. -/
def Shannon.nonce32 (s : Shannon) (v : Nat) : Shannon :=
  s.nonce [shr32s v 24 % 256, shr32s v 16 % 256, shr32s v 8 % 256, v % 256]

/-- Body of the byte drain loop shared by the two drain sites of encrypt
(in-place: output aliases the input buffer).  Returns the new state and the
ciphertext byte. -/
def Shannon.encDrainStep (s : Shannon) (b : Nat) : Shannon × Nat :=
  ({ s with mbuf := s.mbuf ^^^ shl32 (b % 256) (32 - s.nbuf), nbuf := s.nbuf - 8 },
   (b % 256) ^^^ (shr32s s.sbuf (32 - s.nbuf) % 256))

/-- The drain loop of encrypt: while (nbuf != 0 && n != 0).  Returns the
state, the bytes written, and the unconsumed input. -/
def Shannon.encDrain : Shannon → List Nat → Shannon × List Nat × List Nat
  | s, [] => (s, [], [])
  | s, b :: rest =>
    if s.nbuf = 0 then (s, [], b :: rest)
    else
      let p := Shannon.encDrainStep s b
      let q := Shannon.encDrain p.1 rest
      (q.1, p.2 :: q.2.1, q.2.2)

/-- Whole-word loop and trailing-bytes handling of encrypt (in-place). -/
def Shannon.encMain : Shannon → List Nat → Shannon × List Nat
  | s, b0 :: b1 :: b2 :: b3 :: rest =>
    let s1 := s.cycle
    let t := toWord b0 b1 b2 b3
    let s2 := s1.macFunc t
    let u := t ^^^ (s2.sbuf % 2 ^ 32)
    let q := Shannon.encMain s2 rest
    (q.1, (u % 256) :: (shr32s u 8 % 256) :: (shr32s u 16 % 256) :: (shr32s u 24 % 256) :: q.2)
  | s, [] => (s, [])
  | s, rest =>
    let s1 := s.cycle
    let q := Shannon.encDrain { s1 with mbuf := 0, nbuf := 32 } rest
    (q.1, q.2.1)

/-- Combined MAC and encryption, in-place mode (output aliases buffer,
the default of the source). -/
def Shannon.encrypt (s : Shannon) (buffer : List Nat) : Shannon × List Nat :=
  if s.nbuf ≠ 0 then
    let d := Shannon.encDrain s buffer
    if d.1.nbuf ≠ 0 then (d.1, d.2.1 ++ d.2.2)
    else
      let s2 := d.1.macFunc d.1.mbuf
      let m := Shannon.encMain s2 d.2.2
      (m.1, d.2.1 ++ m.2)
  else Shannon.encMain s buffer

/-- Body of the byte drain loop of decrypt (in-place): the output byte is
decrypted first and the decrypted plaintext byte feeds mbuf. -/
def Shannon.decDrainStep (s : Shannon) (b : Nat) : Shannon × Nat :=
  let p := (b % 256) ^^^ (shr32s s.sbuf (32 - s.nbuf) % 256)
  ({ s with mbuf := s.mbuf ^^^ shl32 (p % 256) (32 - s.nbuf), nbuf := s.nbuf - 8 }, p)

/-- The drain loop of decrypt (in-place). -/
def Shannon.decDrain : Shannon → List Nat → Shannon × List Nat × List Nat
  | s, [] => (s, [], [])
  | s, b :: rest =>
    if s.nbuf = 0 then (s, [], b :: rest)
    else
      let p := Shannon.decDrainStep s b
      let q := Shannon.decDrain p.1 rest
      (q.1, p.2 :: q.2.1, q.2.2)

/-- Whole-word loop and trailing-bytes handling of decrypt (in-place). -/
def Shannon.decMain : Shannon → List Nat → Shannon × List Nat
  | s, b0 :: b1 :: b2 :: b3 :: rest =>
    let s1 := s.cycle
    let t := toWord b0 b1 b2 b3
    let u := t ^^^ (s1.sbuf % 2 ^ 32)
    let s2 := s1.macFunc u
    let q := Shannon.decMain s2 rest
    (q.1, (u % 256) :: (shr32s u 8 % 256) :: (shr32s u 16 % 256) :: (shr32s u 24 % 256) :: q.2)
  | s, [] => (s, [])
  | s, rest =>
    let s1 := s.cycle
    let q := Shannon.decDrain { s1 with mbuf := 0, nbuf := 32 } rest
    (q.1, q.2.1)

/-- Combined MAC and decryption, in-place mode. -/
def Shannon.decrypt (s : Shannon) (buffer : List Nat) : Shannon × List Nat :=
  if s.nbuf ≠ 0 then
    let d := Shannon.decDrain s buffer
    if d.1.nbuf ≠ 0 then (d.1, d.2.1 ++ d.2.2)
    else
      let s2 := d.1.macFunc d.1.mbuf
      let m := Shannon.decMain s2 d.2.2
      (m.1, d.2.1 ++ m.2)
  else Shannon.decMain s buffer

/-- Body of the byte drain loop of stream: the stored sbuf itself is
shifted right (arithmetic shift) after each byte. -/
def Shannon.streamStep (s : Shannon) (b : Nat) : Shannon × Nat :=
  ({ s with sbuf := shr32s s.sbuf 8, nbuf := s.nbuf - 8 }, (b % 256) ^^^ (s.sbuf % 256))

/-- The drain loop of stream. -/
def Shannon.streamDrain : Shannon → List Nat → Shannon × List Nat × List Nat
  | s, [] => (s, [], [])
  | s, b :: rest =>
    if s.nbuf = 0 then (s, [], b :: rest)
    else
      let p := Shannon.streamStep s b
      let q := Shannon.streamDrain p.1 rest
      (q.1, p.2 :: q.2.1, q.2.2)

/-- Whole-word loop and trailing-bytes handling of stream. -/
def Shannon.streamMain : Shannon → List Nat → Shannon × List Nat
  | s, b0 :: b1 :: b2 :: b3 :: rest =>
    let s1 := s.cycle
    let q := Shannon.streamMain s1 rest
    (q.1, ((b0 % 256) ^^^ (s1.sbuf % 256)) :: ((b1 % 256) ^^^ (shr32s s1.sbuf 8 % 256)) ::
      ((b2 % 256) ^^^ (shr32s s1.sbuf 16 % 256)) :: ((b3 % 256) ^^^ (shr32s s1.sbuf 24 % 256)) :: q.2)
  | s, [] => (s, [])
  | s, rest =>
    let s1 := s.cycle
    let q := Shannon.streamDrain { s1 with nbuf := 32 } rest
    (q.1, q.2.1)

/-- XOR pseudo-random bytes into buffer (in-place mode).  stream has no
early return: after the drain it falls through to the word loop. -/
def Shannon.stream (s : Shannon) (buffer : List Nat) : Shannon × List Nat :=
  let d := Shannon.streamDrain s buffer
  let m := Shannon.streamMain d.1 d.2.2
  (m.1, d.2.1 ++ m.2)

/-- Body of the byte drain loop of macOnly. -/
def Shannon.macStep (s : Shannon) (b : Nat) : Shannon :=
  { s with mbuf := s.mbuf ^^^ shl32 (b % 256) (32 - s.nbuf), nbuf := s.nbuf - 8 }

/-- The drain loop of macOnly; returns the state and the unconsumed input. -/
def Shannon.macDrain : Shannon → List Nat → Shannon × List Nat
  | s, [] => (s, [])
  | s, b :: rest =>
    if s.nbuf = 0 then (s, b :: rest)
    else Shannon.macDrain (Shannon.macStep s b) rest

/-- Whole-word loop and trailing-bytes handling of macOnly. -/
def Shannon.macMain : Shannon → List Nat → Shannon
  | s, b0 :: b1 :: b2 :: b3 :: rest => Shannon.macMain ((s.cycle).macFunc (toWord b0 b1 b2 b3)) rest
  | s, [] => s
  | s, rest => (Shannon.macDrain { s.cycle with mbuf := 0, nbuf := 32 } rest).1

/-- Accumulate words into MAC without encryption. -/
def Shannon.macOnly (s : Shannon) (buffer : List Nat) : Shannon :=
  if s.nbuf ≠ 0 then
    let d := Shannon.macDrain s buffer
    if d.1.nbuf ≠ 0 then d.1
    else Shannon.macMain (d.1.macFunc d.1.mbuf) d.2
  else Shannon.macMain s buffer

/-- Output generation loop of finish.  The second argument is the number of
bytes still to produce, the third is the running absolute byte index i of
the source.  In the trailing branch the source writes
output[i + j] = (sbuf >> (i * 8)) & 0xFF for every j, with i (a multiple of
4) rather than j in the shift count, so all trailing bytes receive the same
value. -/
def Shannon.finishOut : Shannon → Nat → Nat → Shannon × List Nat
  | s, 0, _ => (s, [])
  | s, n + 4, i =>
    let s1 := s.cycle
    let q := Shannon.finishOut s1 n (i + 4)
    (q.1, (s1.sbuf % 256) :: (shr32s s1.sbuf 8 % 256) :: (shr32s s1.sbuf 16 % 256) ::
      (shr32s s1.sbuf 24 % 256) :: q.2)
  | s, n, i =>
    let s1 := s.cycle
    (s1, List.replicate n (shr32s s1.sbuf ((i * 8) % 32) % 256))

/-- Having accumulated a MAC, finish processing and return a tag of n
bytes: flush a pending partial word, perturb the register with the
end-of-input marker, fold the CRC register into R, diffuse, and generate
output. -/
def Shannon.finish (s : Shannon) (n : Nat) : Shannon × List Nat :=
  let s1 := if s.nbuf ≠ 0 then s.macFunc s.mbuf else s
  let s2 := s1.cycle
  let s3 := s2.addKey (INITKONST ^^^ shl32 s1.nbuf 3)
  let s4 := { s3 with nbuf := 0 }
  let s5 := { s4 with R := List.zipWith (· ^^^ ·) s4.R s4.CRC }
  let s6 := s5.diffuse
  Shannon.finishOut s6 n 0

/-! ### encrypt and decrypt with a distinct (non-aliased) output buffer

The source takes an optional output parameter defaulting to the input
buffer.  The variants below model a call with a distinct output buffer o:
the drain loops read the untouched cells of the respective arrays, and the
trailing loop of decrypt writes into the input buffer. -/

/-- Drain loop body of encrypt with a distinct output: the output cell is
xored with the keystream byte, mbuf accumulates the input cell. -/
def Shannon.encOutStep (s : Shannon) (b o : Nat) : Shannon × Nat :=
  ({ s with mbuf := s.mbuf ^^^ shl32 (b % 256) (32 - s.nbuf), nbuf := s.nbuf - 8 },
   (o % 256) ^^^ (shr32s s.sbuf (32 - s.nbuf) % 256))

/-- Drain loop of encrypt with a distinct output; returns the state, the
output bytes written, the remaining input, and the remaining output. -/
def Shannon.encOutDrain : Shannon → List Nat → List Nat → Shannon × List Nat × List Nat × List Nat
  | s, [], os => (s, [], [], os)
  | s, b :: rest, os =>
    if s.nbuf = 0 then (s, [], b :: rest, os)
    else
      let p := Shannon.encOutStep s b (os.headD 0)
      let q := Shannon.encOutDrain p.1 rest (os.drop 1)
      (q.1, p.2 :: q.2.1, q.2.2)

/-- Word loop and trailing bytes of encrypt with a distinct output;
returns the state and the final content of the output buffer. -/
def Shannon.encOutMain : Shannon → List Nat → List Nat → Shannon × List Nat
  | s, b0 :: b1 :: b2 :: b3 :: rest, os =>
    let s1 := s.cycle
    let t := toWord b0 b1 b2 b3
    let s2 := s1.macFunc t
    let u := t ^^^ (s2.sbuf % 2 ^ 32)
    let q := Shannon.encOutMain s2 rest (os.drop 4)
    (q.1, (u % 256) :: (shr32s u 8 % 256) :: (shr32s u 16 % 256) :: (shr32s u 24 % 256) :: q.2)
  | s, [], os => (s, os)
  | s, rest, os =>
    let s1 := s.cycle
    let q := Shannon.encOutDrain { s1 with mbuf := 0, nbuf := 32 } rest os
    (q.1, q.2.1 ++ q.2.2.2)

/-- Combined MAC and encryption with a distinct output buffer; returns the
state and the final content of the output buffer.  The input buffer is
never written by encrypt. -/
def Shannon.encryptOut (s : Shannon) (buffer output : List Nat) : Shannon × List Nat :=
  if s.nbuf ≠ 0 then
    let d := Shannon.encOutDrain s buffer output
    if d.1.nbuf ≠ 0 then (d.1, d.2.1 ++ d.2.2.2)
    else
      let s2 := d.1.macFunc d.1.mbuf
      let m := Shannon.encOutMain s2 d.2.2.1 d.2.2.2
      (m.1, d.2.1 ++ m.2)
  else Shannon.encOutMain s buffer output

/-- Drain loop of decrypt with a distinct output: the output cell is xored
with the keystream byte, mbuf accumulates the (unmodified) input cell.
Returns the state, the output bytes written, the remaining input, and the
remaining output. -/
def Shannon.decOutDrain : Shannon → List Nat → List Nat → Shannon × List Nat × List Nat × List Nat
  | s, [], os => (s, [], [], os)
  | s, b :: rest, os =>
    if s.nbuf = 0 then (s, [], b :: rest, os)
    else
      let o2 := ((os.headD 0) % 256) ^^^ (shr32s s.sbuf (32 - s.nbuf) % 256)
      let s2 := { s with mbuf := s.mbuf ^^^ shl32 (b % 256) (32 - s.nbuf), nbuf := s.nbuf - 8 }
      let q := Shannon.decOutDrain s2 rest (os.drop 1)
      (q.1, o2 :: q.2.1, q.2.2)

/-- Trailing loop of decrypt with a distinct output: the source writes
buffer[i] ^= keystream byte (the input buffer, not the output) and then
accumulates the new input cell into mbuf.  Returns the state and the final
content of the input buffer from this point on. -/
def Shannon.decOutTrail : Shannon → List Nat → Shannon × List Nat
  | s, [] => (s, [])
  | s, b :: rest =>
    if s.nbuf = 0 then (s, b :: rest)
    else
      let p := Shannon.decDrainStep s b
      let q := Shannon.decOutTrail p.1 rest
      (q.1, p.2 :: q.2)

/-- Word loop and trailing bytes of decrypt with a distinct output;
returns the state, the final content of the input buffer from this point
on, and the final content of the output buffer from this point on. -/
def Shannon.decOutMain : Shannon → List Nat → List Nat → Shannon × List Nat × List Nat
  | s, b0 :: b1 :: b2 :: b3 :: rest, os =>
    let s1 := s.cycle
    let t := toWord b0 b1 b2 b3
    let u := t ^^^ (s1.sbuf % 2 ^ 32)
    let s2 := s1.macFunc u
    let q := Shannon.decOutMain s2 rest (os.drop 4)
    (q.1, b0 :: b1 :: b2 :: b3 :: q.2.1,
     (u % 256) :: (shr32s u 8 % 256) :: (shr32s u 16 % 256) :: (shr32s u 24 % 256) :: q.2.2)
  | s, [], os => (s, [], os)
  | s, rest, os =>
    let s1 := s.cycle
    let q := Shannon.decOutTrail { s1 with mbuf := 0, nbuf := 32 } rest
    (q.1, q.2, os)

/-- Combined MAC and decryption with a distinct output buffer; returns the
state, the final content of the input buffer and the final content of the
output buffer. -/
def Shannon.decryptOut (s : Shannon) (buffer output : List Nat) : Shannon × List Nat × List Nat :=
  if s.nbuf ≠ 0 then
    let d := Shannon.decOutDrain s buffer output
    if d.1.nbuf ≠ 0 then (d.1, buffer, d.2.1 ++ d.2.2.2)
    else
      let s2 := d.1.macFunc d.1.mbuf
      let m := Shannon.decOutMain s2 d.2.2.1 d.2.2.2
      (m.1, buffer.take (buffer.length - d.2.2.1.length) ++ m.2.1, d.2.1 ++ m.2.2)
  else
    let m := Shannon.decOutMain s buffer output
    (m.1, m.2.1, m.2.2)

/-! ### Engine construction and operation sequences -/

/-- An engine freshly keyed with K and, when given, nonced with IV. -/
def initEngine (K : List Nat) (IV : Option (List Nat)) : Shannon :=
  match IV with
  | none => Shannon.new.key K
  | some iv => (Shannon.new.key K).nonce iv

/-- One call to a public operation of the engine. -/
inductive EngineOp where
  | doKey : List Nat → EngineOp
  | doNonce : List Nat → EngineOp
  | doNonce32 : Nat → EngineOp
  | doStream : List Nat → EngineOp
  | doMacOnly : List Nat → EngineOp
  | doEncrypt : List Nat → EngineOp
  | doDecrypt : List Nat → EngineOp
  | doFinish : Nat → EngineOp

/-- Apply one public operation to the engine state. -/
def runOp (s : Shannon) : EngineOp → Shannon
  | .doKey k => s.key k
  | .doNonce iv => s.nonce iv
  | .doNonce32 v => s.nonce32 v
  | .doStream b => (s.stream b).1
  | .doMacOnly b => s.macOnly b
  | .doEncrypt b => (s.encrypt b).1
  | .doDecrypt b => (s.decrypt b).1
  | .doFinish n => (s.finish n).1

/-- Apply a sequence of public operations to the engine state. -/
def runOps (s : Shannon) (l : List EngineOp) : Shannon :=
  l.foldl runOp s

/-- Successive encrypt calls over a list of chunks, with the produced
ciphertext chunks concatenated. -/
def Shannon.encryptChunks : Shannon → List (List Nat) → Shannon × List Nat
  | s, [] => (s, [])
  | s, c :: cs =>
    let p := s.encrypt c
    let q := Shannon.encryptChunks p.1 cs
    (q.1, p.2 ++ q.2)

/-! ### Abstract per-byte machine

The streaming transforms process input in words but carry partial words
across calls in mbuf/sbuf/nbuf.  The per-byte machine below performs the
same computation one byte at a time; the word loops of encrypt and decrypt
agree with it up to the value of the dead mbuf field (dead exactly when
nbuf = 0, since every trailing handler resets mbuf before accumulating).
The machine makes chunking invariance and the encrypt/decrypt round trip
an induction over single bytes. -/

/-- Erase the dead mbuf field: two states that agree after norm behave
identically under every engine operation. -/
def Shannon.norm (s : Shannon) : Shannon :=
  if s.nbuf = 0 then { s with mbuf := 0 } else s

/-- nbuf values reachable after any completed public call. -/
def NbufInv (s : Shannon) : Prop :=
  s.nbuf = 0 ∨ s.nbuf = 8 ∨ s.nbuf = 16 ∨ s.nbuf = 24

/-- Equality of all fields except the MAC partial-word buffer. -/
def EqM (a b : Shannon) : Prop :=
  a.R = b.R ∧ a.CRC = b.CRC ∧ a.initR = b.initR ∧ a.konst = b.konst ∧
  a.sbuf = b.sbuf ∧ a.nbuf = b.nbuf

/-- The key of the repository test suite. -/
def testKey : List Nat :=
  [0x65, 0x87, 0xd8, 0x8f, 0x6c, 0x32, 0x9d, 0x8a, 0xe4, 0x6b]

/-- The UTF-8 bytes of the plaintext of the repository test suite. -/
def helloBytes : List Nat :=
  [0x48, 0x65, 0x6c, 0x6c, 0x6f, 0x20, 0x57, 0x6f, 0x72, 0x6c, 0x64]

/-- Modelled from the spec: the byte-reversal of a 32-bit value, byte i of
the result being byte 3 - i of the input. -/
def bswap32Spec (v : Nat) : Nat :=
  v / 2 ^ 24 % 256 + v / 2 ^ 16 % 256 * 2 ^ 8 + v / 2 ^ 8 % 256 * 2 ^ 16 + v % 256 * 2 ^ 24

/-- One byte of encrypt: start a fresh word when byte-aligned, drain one
byte, and fold the completed word into the MAC when the word fills up. -/
def Shannon.encByte (s : Shannon) (b : Nat) : Shannon × Nat :=
  let s0 := if s.nbuf = 0 then { s.cycle with mbuf := 0, nbuf := 32 } else s
  let p := Shannon.encDrainStep s0 b
  (if p.1.nbuf = 0 then p.1.macFunc p.1.mbuf else p.1, p.2)

/-- encrypt as a fold of encByte. -/
def Shannon.encBytes : Shannon → List Nat → Shannon × List Nat
  | s, [] => (s, [])
  | s, b :: rest =>
    let p := s.encByte b
    let q := Shannon.encBytes p.1 rest
    (q.1, p.2 :: q.2)

/-- One byte of decrypt. -/
def Shannon.decByte (s : Shannon) (b : Nat) : Shannon × Nat :=
  let s0 := if s.nbuf = 0 then { s.cycle with mbuf := 0, nbuf := 32 } else s
  let p := Shannon.decDrainStep s0 b
  (if p.1.nbuf = 0 then p.1.macFunc p.1.mbuf else p.1, p.2)

/-- decrypt as a fold of decByte. -/
def Shannon.decBytes : Shannon → List Nat → Shannon × List Nat
  | s, [] => (s, [])
  | s, b :: rest =>
    let p := s.decByte b
    let q := Shannon.decBytes p.1 rest
    (q.1, p.2 :: q.2)

/-! ### Arithmetic facts about the 32-bit primitives -/

theorem xor_shiftRight_distrib (x y k : Nat) : (x ^^^ y) >>> k = x >>> k ^^^ y >>> k := by
  apply Nat.eq_of_testBit_eq
  intro i
  simp [Nat.testBit_shiftRight, Nat.testBit_xor]

theorem xor_div_pow (x y k : Nat) : (x ^^^ y) / 2 ^ k = x / 2 ^ k ^^^ y / 2 ^ k := by
  simpa [Nat.shiftRight_eq_div_pow] using xor_shiftRight_distrib x y k

theorem xor_mod_pow (x y k : Nat) : (x ^^^ y) % 2 ^ k = x % 2 ^ k ^^^ y % 2 ^ k := by
  apply Nat.eq_of_testBit_eq
  intro i
  rcases Nat.lt_or_ge i k with h | h
  · simp [Nat.testBit_mod_two_pow, Nat.testBit_xor, h]
  · simp [Nat.testBit_mod_two_pow, Nat.testBit_xor, Nat.not_lt.2 h]

theorem xor_byte (x y k : Nat) :
    (x ^^^ y) / 2 ^ k % 256 = (x / 2 ^ k % 256) ^^^ (y / 2 ^ k % 256) := by
  rw [xor_div_pow]
  have h := xor_mod_pow (x / 2 ^ k) (y / 2 ^ k) 8
  norm_num at h
  exact h

theorem mod32_div_mod256 (x s : Nat) (h : s + 8 ≤ 32) :
    x % 2 ^ 32 / 2 ^ s % 256 = x / 2 ^ s % 256 := by
  have h256 : (256 : Nat) = 2 ^ 8 := by norm_num
  rw [h256]
  apply Nat.eq_of_testBit_eq
  intro i
  rw [Nat.testBit_mod_two_pow, Nat.testBit_mod_two_pow]
  rcases Nat.lt_or_ge i 8 with hi | hi
  · rw [← Nat.shiftRight_eq_div_pow, ← Nat.shiftRight_eq_div_pow,
      Nat.testBit_shiftRight, Nat.testBit_shiftRight, Nat.testBit_mod_two_pow]
    have hsi : s + i < 32 := by omega
    simp [hsi, hi]
  · simp [Nat.not_lt.2 hi]

theorem shr32s_mod256 (x s : Nat) (h : s + 8 ≤ 32) :
    shr32s x s % 256 = x / 2 ^ s % 256 := by
  unfold shr32s
  have hs : s % 32 = s := Nat.mod_eq_of_lt (by omega)
  rw [hs]
  split
  · rw [Nat.shiftRight_eq_div_pow]
    exact mod32_div_mod256 x s h
  · rw [Nat.shiftRight_eq_div_pow]
    have key := mod32_div_mod256 x s h
    have e2 : (2 : Nat) ^ (32 - s) = 256 * 2 ^ (24 - s) := by
      rw [show 32 - s = 8 + (24 - s) by omega, Nat.pow_add]
    have hM : (2 ^ 32 - 2 ^ (32 - s)) % 256 = 0 := by
      rw [e2]
      omega
    generalize hB : x % 2 ^ 32 / 2 ^ s = B at key ⊢
    generalize hC : x / 2 ^ s = C at key ⊢
    generalize hMM : 2 ^ 32 - 2 ^ (32 - s) = M at hM ⊢
    omega

theorem toWord_eq (b0 b1 b2 b3 : Nat) :
    toWord b0 b1 b2 b3 =
      b0 % 256 + b1 % 256 * 2 ^ 8 + b2 % 256 * 2 ^ 16 + b3 % 256 * 2 ^ 24 := by
  have h0 : b0 % 256 < 256 := Nat.mod_lt _ (by norm_num)
  have h1 : b1 % 256 < 256 := Nat.mod_lt _ (by norm_num)
  have h2 : b2 % 256 < 256 := Nat.mod_lt _ (by norm_num)
  unfold toWord
  rw [Nat.shiftLeft_eq, Nat.shiftLeft_eq, Nat.shiftLeft_eq]
  rw [show b3 % 256 * 2 ^ 24 = 2 ^ 24 * (b3 % 256) from Nat.mul_comm _ _]
  rw [← Nat.mul_add_lt_is_or (show b2 % 256 * 2 ^ 16 < 2 ^ 24 by norm_num; omega) (b3 % 256)]
  rw [show 2 ^ 24 * (b3 % 256) + b2 % 256 * 2 ^ 16
        = 2 ^ 16 * (2 ^ 8 * (b3 % 256) + b2 % 256) by ring]
  rw [← Nat.mul_add_lt_is_or (show b1 % 256 * 2 ^ 8 < 2 ^ 16 by norm_num; omega) _]
  rw [show 2 ^ 16 * (2 ^ 8 * (b3 % 256) + b2 % 256) + b1 % 256 * 2 ^ 8
        = 2 ^ 8 * (2 ^ 16 * (b3 % 256) + 2 ^ 8 * (b2 % 256) + b1 % 256) by ring]
  rw [← Nat.mul_add_lt_is_or (show b0 % 256 < 2 ^ 8 by norm_num; omega) _]
  ring

theorem toWord_lt (b0 b1 b2 b3 : Nat) : toWord b0 b1 b2 b3 < 2 ^ 32 := by
  rw [toWord_eq]
  have h0 : b0 % 256 < 256 := Nat.mod_lt _ (by norm_num)
  have h1 : b1 % 256 < 256 := Nat.mod_lt _ (by norm_num)
  have h2 : b2 % 256 < 256 := Nat.mod_lt _ (by norm_num)
  have h3 : b3 % 256 < 256 := Nat.mod_lt _ (by norm_num)
  norm_num
  omega

theorem xor_mul_pow_eq_add (x y k : Nat) (hx : x < 2 ^ k) :
    x ^^^ y * 2 ^ k = x + y * 2 ^ k := by
  have hlor : x ^^^ y * 2 ^ k = x ||| y * 2 ^ k := by
    apply Nat.eq_of_testBit_eq
    intro i
    rcases Nat.lt_or_ge i k with h | h
    · have hy : (y * 2 ^ k).testBit i = false := by
        rw [show y * 2 ^ k = y <<< k from (Nat.shiftLeft_eq y k).symm]
        simp [Nat.testBit_shiftLeft, Nat.not_le.2 h]
      simp [Nat.testBit_xor, Nat.testBit_or, hy]
    · have hx' : x.testBit i = false :=
        Nat.testBit_lt_two_pow (Nat.lt_of_lt_of_le hx (Nat.pow_le_pow_right (by norm_num) h))
      simp [Nat.testBit_xor, Nat.testBit_or, hx']
  rw [hlor, Nat.lor_comm, Nat.mul_comm y, ← Nat.mul_add_lt_is_or hx y]
  ring

theorem word_bytes (a b c d : Nat) (ha : a < 256) (hb : b < 256) (hc : c < 256) (hd : d < 256) :
    (a + b * 2 ^ 8 + c * 2 ^ 16 + d * 2 ^ 24) % 256 = a ∧
    (a + b * 2 ^ 8 + c * 2 ^ 16 + d * 2 ^ 24) / 2 ^ 8 % 256 = b ∧
    (a + b * 2 ^ 8 + c * 2 ^ 16 + d * 2 ^ 24) / 2 ^ 16 % 256 = c ∧
    (a + b * 2 ^ 8 + c * 2 ^ 16 + d * 2 ^ 24) / 2 ^ 24 % 256 = d := by
  norm_num
  omega

theorem word_recompose (x : Nat) (h : x < 2 ^ 32) :
    x % 256 + x / 2 ^ 8 % 256 * 2 ^ 8 + x / 2 ^ 16 % 256 * 2 ^ 16
      + x / 2 ^ 24 % 256 * 2 ^ 24 = x := by
  norm_num at h ⊢
  omega

theorem shl32_eq (x k : Nat) (hx : x < 256) (hk : k ≤ 24) : shl32 x k = x * 2 ^ k := by
  unfold shl32
  rw [Nat.mod_eq_of_lt (Nat.lt_of_lt_of_le hx (by norm_num)),
    Nat.mod_eq_of_lt (show k < 32 by omega), Nat.shiftLeft_eq]
  apply Nat.mod_eq_of_lt
  calc x * 2 ^ k ≤ 255 * 2 ^ 24 :=
        Nat.mul_le_mul (by omega) (Nat.pow_le_pow_right (by norm_num) hk)
    _ < 2 ^ 32 := by norm_num

theorem xor_cancel_r (a b : Nat) : a ^^^ b ^^^ b = a := by
  rw [Nat.xor_assoc, Nat.xor_self, Nat.xor_zero]

theorem xor_lt_256 (a b : Nat) (ha : a < 256) (hb : b < 256) : a ^^^ b < 256 := by
  have h := Nat.xor_lt_two_pow (show a < 2 ^ 8 by norm_num; omega) (show b < 2 ^ 8 by norm_num; omega)
  norm_num at h
  exact h

/-! ### Field preservation and normalization lemmas -/

@[simp] theorem cycle_CRC (s : Shannon) : s.cycle.CRC = s.CRC := rfl

@[simp] theorem cycle_initR (s : Shannon) : s.cycle.initR = s.initR := rfl

@[simp] theorem cycle_konst (s : Shannon) : s.cycle.konst = s.konst := rfl

@[simp] theorem cycle_mbuf (s : Shannon) : s.cycle.mbuf = s.mbuf := rfl

@[simp] theorem cycle_nbuf (s : Shannon) : s.cycle.nbuf = s.nbuf := rfl

@[simp] theorem macFunc_initR (s : Shannon) (i : Nat) : (s.macFunc i).initR = s.initR := rfl

@[simp] theorem macFunc_konst (s : Shannon) (i : Nat) : (s.macFunc i).konst = s.konst := rfl

@[simp] theorem macFunc_sbuf (s : Shannon) (i : Nat) : (s.macFunc i).sbuf = s.sbuf := rfl

@[simp] theorem macFunc_mbuf (s : Shannon) (i : Nat) : (s.macFunc i).mbuf = s.mbuf := rfl

@[simp] theorem macFunc_nbuf (s : Shannon) (i : Nat) : (s.macFunc i).nbuf = s.nbuf := rfl

@[simp] theorem addKey_CRC (s : Shannon) (k : Nat) : (s.addKey k).CRC = s.CRC := rfl

@[simp] theorem addKey_nbuf (s : Shannon) (k : Nat) : (s.addKey k).nbuf = s.nbuf := rfl

/-- cycle reads only R and konst, so it commutes with setting mbuf. -/
theorem cycle_mbufSet (s : Shannon) (m : Nat) :
    ({ s with mbuf := m } : Shannon).cycle = { s.cycle with mbuf := m } := rfl

/-- cycle also commutes with setting both mbuf and nbuf. -/
theorem cycle_set2 (s : Shannon) (m n : Nat) :
    ({ s with mbuf := m, nbuf := n } : Shannon).cycle = { s.cycle with mbuf := m, nbuf := n } := rfl

theorem macFunc_mbufSet (s : Shannon) (m i : Nat) :
    ({ s with mbuf := m } : Shannon).macFunc i = { s.macFunc i with mbuf := m } := rfl

theorem addKey_mbufSet (s : Shannon) (m k : Nat) :
    ({ s with mbuf := m } : Shannon).addKey k = { s.addKey k with mbuf := m } := rfl

@[simp] theorem norm_nbuf (s : Shannon) : s.norm.nbuf = s.nbuf := by
  unfold Shannon.norm
  split <;> rfl

theorem norm_of_ne (s : Shannon) (h : s.nbuf ≠ 0) : s.norm = s := by
  unfold Shannon.norm
  simp [h]

theorem norm_of_eq (s : Shannon) (h : s.nbuf = 0) : s.norm = { s with mbuf := 0 } := by
  unfold Shannon.norm
  simp [h]

theorem norm_mbufSet (s : Shannon) (m : Nat) (h : s.nbuf = 0) :
    ({ s with mbuf := m } : Shannon).norm = s.norm := by
  unfold Shannon.norm
  simp [h]

@[simp] theorem norm_idem (s : Shannon) : s.norm.norm = s.norm := by
  by_cases h : s.nbuf = 0
  · rw [norm_of_eq s h, norm_of_eq ({ s with mbuf := 0 }) (by simpa using h)]
  · rw [norm_of_ne s h, norm_of_ne s h]

/-! ### The per-byte machine tolerates normalization -/

theorem encByte_norm (s : Shannon) (x : Nat) :
    (s.norm.encByte x).2 = (s.encByte x).2 ∧ (s.norm.encByte x).1.norm = (s.encByte x).1.norm := by
  by_cases h : s.nbuf = 0
  · rw [norm_of_eq s h]
    unfold Shannon.encByte Shannon.encDrainStep
    simp [h, cycle_mbufSet, cycle_set2]
  · rw [norm_of_ne s h]
    exact ⟨rfl, rfl⟩

theorem decByte_norm (s : Shannon) (x : Nat) :
    (s.norm.decByte x).2 = (s.decByte x).2 ∧ (s.norm.decByte x).1.norm = (s.decByte x).1.norm := by
  by_cases h : s.nbuf = 0
  · rw [norm_of_eq s h]
    unfold Shannon.decByte Shannon.decDrainStep
    simp [h, cycle_mbufSet, cycle_set2]
  · rw [norm_of_ne s h]
    exact ⟨rfl, rfl⟩

theorem encBytes_norm (P : List Nat) : ∀ s : Shannon,
    (Shannon.encBytes s.norm P).2 = (Shannon.encBytes s P).2 ∧
    (Shannon.encBytes s.norm P).1.norm = (Shannon.encBytes s P).1.norm := by
  induction P with
  | nil =>
    intro s
    exact ⟨rfl, by simp [Shannon.encBytes]⟩
  | cons b rest ih =>
    intro s
    obtain ⟨h1, h2⟩ := encByte_norm s b
    have chainA := ih (s.norm.encByte b).1
    have chainB := ih (s.encByte b).1
    rw [h2] at chainA
    constructor
    · show (Shannon.encBytes (s.norm.encByte b).1 rest).2.cons (s.norm.encByte b).2
        = (Shannon.encBytes (s.encByte b).1 rest).2.cons (s.encByte b).2
      rw [h1, ← chainA.1, chainB.1]
    · show (Shannon.encBytes (s.norm.encByte b).1 rest).1.norm
        = (Shannon.encBytes (s.encByte b).1 rest).1.norm
      rw [← chainA.2, chainB.2]

theorem decBytes_norm (P : List Nat) : ∀ s : Shannon,
    (Shannon.decBytes s.norm P).2 = (Shannon.decBytes s P).2 ∧
    (Shannon.decBytes s.norm P).1.norm = (Shannon.decBytes s P).1.norm := by
  induction P with
  | nil =>
    intro s
    exact ⟨rfl, by simp [Shannon.decBytes]⟩
  | cons b rest ih =>
    intro s
    obtain ⟨h1, h2⟩ := decByte_norm s b
    have chainA := ih (s.norm.decByte b).1
    have chainB := ih (s.decByte b).1
    rw [h2] at chainA
    constructor
    · show (Shannon.decBytes (s.norm.decByte b).1 rest).2.cons (s.norm.decByte b).2
        = (Shannon.decBytes (s.decByte b).1 rest).2.cons (s.decByte b).2
      rw [h1, ← chainA.1, chainB.1]
    · show (Shannon.decBytes (s.norm.decByte b).1 rest).1.norm
        = (Shannon.decBytes (s.decByte b).1 rest).1.norm
      rw [← chainA.2, chainB.2]

theorem encBytes_congr (P : List Nat) (a b : Shannon) (h : a.norm = b.norm) :
    (Shannon.encBytes a P).2 = (Shannon.encBytes b P).2 ∧
    (Shannon.encBytes a P).1.norm = (Shannon.encBytes b P).1.norm := by
  obtain ⟨oa, sa⟩ := encBytes_norm P a
  obtain ⟨ob, sb⟩ := encBytes_norm P b
  rw [h] at oa sa
  exact ⟨by rw [← oa, ob], by rw [← sa, sb]⟩

theorem decBytes_congr (P : List Nat) (a b : Shannon) (h : a.norm = b.norm) :
    (Shannon.decBytes a P).2 = (Shannon.decBytes b P).2 ∧
    (Shannon.decBytes a P).1.norm = (Shannon.decBytes b P).1.norm := by
  obtain ⟨oa, sa⟩ := decBytes_norm P a
  obtain ⟨ob, sb⟩ := decBytes_norm P b
  rw [h] at oa sa
  exact ⟨by rw [← oa, ob], by rw [← sa, sb]⟩

/-! ### nbuf invariant preservation of the byte machine -/

theorem encByte_NbufInv (s : Shannon) (x : Nat) (h : NbufInv s) : NbufInv (s.encByte x).1 := by
  unfold Shannon.encByte Shannon.encDrainStep
  rcases h with h | h | h | h <;> simp [h, NbufInv]

theorem decByte_NbufInv (s : Shannon) (x : Nat) (h : NbufInv s) : NbufInv (s.decByte x).1 := by
  unfold Shannon.decByte Shannon.decDrainStep
  rcases h with h | h | h | h <;> simp [h, NbufInv]

theorem encBytes_NbufInv (P : List Nat) : ∀ s, NbufInv s → NbufInv (Shannon.encBytes s P).1 := by
  induction P with
  | nil => intro s h; exact h
  | cons b rest ih =>
    intro s h
    exact ih _ (encByte_NbufInv s b h)

theorem decBytes_NbufInv (P : List Nat) : ∀ s, NbufInv s → NbufInv (Shannon.decBytes s P).1 := by
  induction P with
  | nil => intro s h; exact h
  | cons b rest ih =>
    intro s h
    exact ih _ (decByte_NbufInv s b h)

/-! ### The byte machine splits over concatenation -/

theorem encBytes_nil (s : Shannon) : Shannon.encBytes s [] = (s, []) := rfl

theorem encBytes_cons (s : Shannon) (b : Nat) (l : List Nat) :
    Shannon.encBytes s (b :: l) =
      ((Shannon.encBytes (s.encByte b).1 l).1,
       (s.encByte b).2 :: (Shannon.encBytes (s.encByte b).1 l).2) := rfl

theorem decBytes_nil (s : Shannon) : Shannon.decBytes s [] = (s, []) := rfl

theorem decBytes_cons (s : Shannon) (b : Nat) (l : List Nat) :
    Shannon.decBytes s (b :: l) =
      ((Shannon.decBytes (s.decByte b).1 l).1,
       (s.decByte b).2 :: (Shannon.decBytes (s.decByte b).1 l).2) := rfl

theorem encBytes_append (P Q : List Nat) : ∀ s,
    Shannon.encBytes s (P ++ Q) =
      ((Shannon.encBytes (Shannon.encBytes s P).1 Q).1,
       (Shannon.encBytes s P).2 ++ (Shannon.encBytes (Shannon.encBytes s P).1 Q).2) := by
  induction P with
  | nil => intro s; simp [encBytes_nil]
  | cons b rest ih =>
    intro s
    rw [List.cons_append, encBytes_cons, ih ((s.encByte b).1), encBytes_cons]
    simp

/-! ### One word of the byte machine equals one word-loop step -/

theorem xor_word_byte (t x k : Nat) (hk : k + 8 ≤ 32) :
    shr32s (t ^^^ x % 2 ^ 32) k % 256 = (t / 2 ^ k % 256) ^^^ (shr32s x k % 256) := by
  rw [shr32s_mod256 _ k hk, shr32s_mod256 x k hk, xor_byte, mod32_div_mod256 x k hk]

theorem xor_word_byte0 (t x : Nat) :
    (t ^^^ x % 2 ^ 32) % 256 = (t % 256) ^^^ (shr32s x 0 % 256) := by
  have h := xor_byte t (x % 2 ^ 32) 0
  rw [pow_zero, Nat.div_one, Nat.div_one, Nat.div_one] at h
  have h0 := shr32s_mod256 x 0 (by omega)
  rw [pow_zero, Nat.div_one] at h0
  rw [h, h0, Nat.mod_mod_of_dvd x (by norm_num : (256 : Nat) ∣ 2 ^ 32)]

theorem toWord_byte (b0 b1 b2 b3 : Nat) :
    toWord b0 b1 b2 b3 % 256 = b0 % 256 ∧
    toWord b0 b1 b2 b3 / 2 ^ 8 % 256 = b1 % 256 ∧
    toWord b0 b1 b2 b3 / 2 ^ 16 % 256 = b2 % 256 ∧
    toWord b0 b1 b2 b3 / 2 ^ 24 % 256 = b3 % 256 := by
  rw [toWord_eq]
  exact word_bytes _ _ _ _ (Nat.mod_lt _ (by norm_num)) (Nat.mod_lt _ (by norm_num))
    (Nat.mod_lt _ (by norm_num)) (Nat.mod_lt _ (by norm_num))

theorem mbuf_accum (b0 b1 b2 b3 : Nat) :
    ((shl32 (b0 % 256) 0 ^^^ shl32 (b1 % 256) 8) ^^^ shl32 (b2 % 256) 16) ^^^ shl32 (b3 % 256) 24
      = toWord b0 b1 b2 b3 := by
  have h0 : b0 % 256 < 256 := Nat.mod_lt _ (by norm_num)
  have h1 : b1 % 256 < 256 := Nat.mod_lt _ (by norm_num)
  have h2 : b2 % 256 < 256 := Nat.mod_lt _ (by norm_num)
  have h3 : b3 % 256 < 256 := Nat.mod_lt _ (by norm_num)
  rw [shl32_eq _ 0 h0 (by norm_num), shl32_eq _ 8 h1 (by norm_num),
    shl32_eq _ 16 h2 (by norm_num), shl32_eq _ 24 h3 (by norm_num), toWord_eq]
  rw [xor_mul_pow_eq_add _ _ 8 (by norm_num; omega)]
  rw [xor_mul_pow_eq_add _ _ 16 (by norm_num; omega)]
  rw [xor_mul_pow_eq_add _ _ 24 (by norm_num; omega)]
  ring

theorem macFunc_set2 (s : Shannon) (m n i : Nat) :
    ({ s with mbuf := m, nbuf := n } : Shannon).macFunc i = { s.macFunc i with mbuf := m, nbuf := n } := rfl

/-! Explicit forms of encByte and decByte at the four reachable nbuf values. -/

theorem encByte_start (s : Shannon) (b : Nat) (h : s.nbuf = 0) :
    s.encByte b = ({ s.cycle with mbuf := shl32 (b % 256) 0, nbuf := 24 },
      (b % 256) ^^^ (shr32s s.cycle.sbuf 0 % 256)) := by
  unfold Shannon.encByte Shannon.encDrainStep
  simp [h]

theorem encByte_24 (s : Shannon) (b : Nat) (h : s.nbuf = 24) :
    s.encByte b = ({ s with mbuf := s.mbuf ^^^ shl32 (b % 256) 8, nbuf := 16 },
      (b % 256) ^^^ (shr32s s.sbuf 8 % 256)) := by
  unfold Shannon.encByte Shannon.encDrainStep
  simp [h]

theorem encByte_16 (s : Shannon) (b : Nat) (h : s.nbuf = 16) :
    s.encByte b = ({ s with mbuf := s.mbuf ^^^ shl32 (b % 256) 16, nbuf := 8 },
      (b % 256) ^^^ (shr32s s.sbuf 16 % 256)) := by
  unfold Shannon.encByte Shannon.encDrainStep
  simp [h]

theorem encByte_8 (s : Shannon) (b : Nat) (h : s.nbuf = 8) :
    s.encByte b = (Shannon.macFunc { s with mbuf := s.mbuf ^^^ shl32 (b % 256) 24, nbuf := 0 }
        (s.mbuf ^^^ shl32 (b % 256) 24),
      (b % 256) ^^^ (shr32s s.sbuf 24 % 256)) := by
  unfold Shannon.encByte Shannon.encDrainStep
  simp [h]

theorem decByte_start (s : Shannon) (b : Nat) (h : s.nbuf = 0) :
    s.decByte b = ({ s.cycle with
        mbuf := shl32 (((b % 256) ^^^ (shr32s s.cycle.sbuf 0 % 256)) % 256) 0, nbuf := 24 },
      (b % 256) ^^^ (shr32s s.cycle.sbuf 0 % 256)) := by
  unfold Shannon.decByte Shannon.decDrainStep
  simp [h]

theorem decByte_24 (s : Shannon) (b : Nat) (h : s.nbuf = 24) :
    s.decByte b = ({ s with
        mbuf := s.mbuf ^^^ shl32 (((b % 256) ^^^ (shr32s s.sbuf 8 % 256)) % 256) 8, nbuf := 16 },
      (b % 256) ^^^ (shr32s s.sbuf 8 % 256)) := by
  unfold Shannon.decByte Shannon.decDrainStep
  simp [h]

theorem decByte_16 (s : Shannon) (b : Nat) (h : s.nbuf = 16) :
    s.decByte b = ({ s with
        mbuf := s.mbuf ^^^ shl32 (((b % 256) ^^^ (shr32s s.sbuf 16 % 256)) % 256) 16, nbuf := 8 },
      (b % 256) ^^^ (shr32s s.sbuf 16 % 256)) := by
  unfold Shannon.decByte Shannon.decDrainStep
  simp [h]

theorem decByte_8 (s : Shannon) (b : Nat) (h : s.nbuf = 8) :
    s.decByte b = (Shannon.macFunc { s with
        mbuf := s.mbuf ^^^ shl32 (((b % 256) ^^^ (shr32s s.sbuf 24 % 256)) % 256) 24, nbuf := 0 }
        (s.mbuf ^^^ shl32 (((b % 256) ^^^ (shr32s s.sbuf 24 % 256)) % 256) 24),
      (b % 256) ^^^ (shr32s s.sbuf 24 % 256)) := by
  unfold Shannon.decByte Shannon.decDrainStep
  simp [h]

theorem encBytes_word (s : Shannon) (h : s.nbuf = 0) (b0 b1 b2 b3 : Nat) (rest : List Nat) :
    Shannon.encBytes s (b0 :: b1 :: b2 :: b3 :: rest) =
      ((Shannon.encBytes { s.cycle.macFunc (toWord b0 b1 b2 b3) with mbuf := toWord b0 b1 b2 b3 } rest).1,
        ((toWord b0 b1 b2 b3 ^^^ s.cycle.sbuf % 2 ^ 32) % 256)
          :: (shr32s (toWord b0 b1 b2 b3 ^^^ s.cycle.sbuf % 2 ^ 32) 8 % 256)
          :: (shr32s (toWord b0 b1 b2 b3 ^^^ s.cycle.sbuf % 2 ^ 32) 16 % 256)
          :: (shr32s (toWord b0 b1 b2 b3 ^^^ s.cycle.sbuf % 2 ^ 32) 24 % 256)
          :: (Shannon.encBytes { s.cycle.macFunc (toWord b0 b1 b2 b3) with mbuf := toWord b0 b1 b2 b3 } rest).2) := by
  have hb := toWord_byte b0 b1 b2 b3
  rw [xor_word_byte0 (toWord b0 b1 b2 b3) s.cycle.sbuf,
    xor_word_byte (toWord b0 b1 b2 b3) s.cycle.sbuf 8 (by omega),
    xor_word_byte (toWord b0 b1 b2 b3) s.cycle.sbuf 16 (by omega),
    xor_word_byte (toWord b0 b1 b2 b3) s.cycle.sbuf 24 (by omega),
    hb.1, hb.2.1, hb.2.2.1, hb.2.2.2]
  have acc := mbuf_accum b0 b1 b2 b3
  rw [encBytes_cons, encByte_start s b0 h]
  rw [encBytes_cons, encByte_24 _ b1 rfl]
  rw [encBytes_cons, encByte_16 _ b2 rfl]
  rw [encBytes_cons, encByte_8 _ b3 rfl]
  simp only [macFunc_set2]
  simp [h, Nat.zero_xor, acc]

theorem mbuf_accum_u (u : Nat) (hu : u < 2 ^ 32) :
    ((shl32 (u % 256) 0 ^^^ shl32 (u / 256 % 256) 8) ^^^ shl32 (u / 65536 % 256) 16)
      ^^^ shl32 (u / 16777216 % 256) 24 = u := by
  have h0 : u % 256 < 256 := Nat.mod_lt _ (by norm_num)
  have h1 : u / 256 % 256 < 256 := Nat.mod_lt _ (by norm_num)
  have h2 : u / 65536 % 256 < 256 := Nat.mod_lt _ (by norm_num)
  have h3 : u / 16777216 % 256 < 256 := Nat.mod_lt _ (by norm_num)
  rw [shl32_eq _ 0 h0 (by norm_num), shl32_eq _ 8 h1 (by norm_num),
    shl32_eq _ 16 h2 (by norm_num), shl32_eq _ 24 h3 (by norm_num)]
  rw [xor_mul_pow_eq_add _ _ 8 (by norm_num; omega)]
  rw [xor_mul_pow_eq_add _ _ 16 (by norm_num; omega)]
  rw [xor_mul_pow_eq_add _ _ 24 (by norm_num; omega)]
  have hr := word_recompose u hu
  norm_num at hr ⊢
  omega

theorem decBytes_word (s : Shannon) (h : s.nbuf = 0) (c0 c1 c2 c3 : Nat) (rest : List Nat) :
    Shannon.decBytes s (c0 :: c1 :: c2 :: c3 :: rest) =
      ((Shannon.decBytes { s.cycle.macFunc (toWord c0 c1 c2 c3 ^^^ s.cycle.sbuf % 2 ^ 32)
          with mbuf := toWord c0 c1 c2 c3 ^^^ s.cycle.sbuf % 2 ^ 32 } rest).1,
        ((toWord c0 c1 c2 c3 ^^^ s.cycle.sbuf % 2 ^ 32) % 256)
          :: (shr32s (toWord c0 c1 c2 c3 ^^^ s.cycle.sbuf % 2 ^ 32) 8 % 256)
          :: (shr32s (toWord c0 c1 c2 c3 ^^^ s.cycle.sbuf % 2 ^ 32) 16 % 256)
          :: (shr32s (toWord c0 c1 c2 c3 ^^^ s.cycle.sbuf % 2 ^ 32) 24 % 256)
          :: (Shannon.decBytes { s.cycle.macFunc (toWord c0 c1 c2 c3 ^^^ s.cycle.sbuf % 2 ^ 32)
               with mbuf := toWord c0 c1 c2 c3 ^^^ s.cycle.sbuf % 2 ^ 32 } rest).2) := by
  have hb := toWord_byte c0 c1 c2 c3
  have hu : toWord c0 c1 c2 c3 ^^^ s.cycle.sbuf % 2 ^ 32 < 2 ^ 32 :=
    Nat.xor_lt_two_pow (toWord_lt _ _ _ _) (Nat.mod_lt _ (by norm_num))
  have ep0 : (c0 % 256) ^^^ (shr32s s.cycle.sbuf 0 % 256)
      = (toWord c0 c1 c2 c3 ^^^ s.cycle.sbuf % 2 ^ 32) % 256 := by
    rw [xor_word_byte0, hb.1]
  have ep1 : (c1 % 256) ^^^ (shr32s s.cycle.sbuf 8 % 256)
      = shr32s (toWord c0 c1 c2 c3 ^^^ s.cycle.sbuf % 2 ^ 32) 8 % 256 := by
    rw [xor_word_byte _ _ 8 (by omega), hb.2.1]
  have ep2 : (c2 % 256) ^^^ (shr32s s.cycle.sbuf 16 % 256)
      = shr32s (toWord c0 c1 c2 c3 ^^^ s.cycle.sbuf % 2 ^ 32) 16 % 256 := by
    rw [xor_word_byte _ _ 16 (by omega), hb.2.2.1]
  have ep3 : (c3 % 256) ^^^ (shr32s s.cycle.sbuf 24 % 256)
      = shr32s (toWord c0 c1 c2 c3 ^^^ s.cycle.sbuf % 2 ^ 32) 24 % 256 := by
    rw [xor_word_byte _ _ 24 (by omega), hb.2.2.2]
  rw [decBytes_cons, decByte_start s c0 h]
  rw [decBytes_cons, decByte_24 _ c1 rfl]
  rw [decBytes_cons, decByte_16 _ c2 rfl]
  rw [decBytes_cons, decByte_8 _ c3 rfl]
  rw [ep0, ep1, ep2, ep3]
  simp only [Nat.mod_mod_of_dvd _ (dvd_refl 256)]
  rw [shr32s_mod256 _ 8 (by omega), shr32s_mod256 _ 16 (by omega), shr32s_mod256 _ 24 (by omega)]
  have hu2 : toWord c0 c1 c2 c3 ^^^ s.cycle.sbuf % 4294967296 < 2 ^ 32 := by
    norm_num at hu ⊢
    exact hu
  simp only [macFunc_set2]
  simp [h, mbuf_accum_u _ hu2]

/-! ### The word-loop functions agree with the byte machine -/

theorem encDrain_stop (s : Shannon) (l : List Nat) (h : s.nbuf = 0) :
    Shannon.encDrain s l = (s, [], l) := by
  cases l <;> simp [Shannon.encDrain, h]

theorem decDrain_stop (s : Shannon) (l : List Nat) (h : s.nbuf = 0) :
    Shannon.decDrain s l = (s, [], l) := by
  cases l <;> simp [Shannon.decDrain, h]

theorem encMain_eq : ∀ (n : Nat) (P : List Nat) (s : Shannon), P.length ≤ n → s.nbuf = 0 →
    (Shannon.encMain s P).2 = (Shannon.encBytes s P).2 ∧
    (Shannon.encMain s P).1.norm = (Shannon.encBytes s P).1.norm := by
  intro n
  induction n with
  | zero =>
    intro P s hl h
    have hP : P = [] := List.length_eq_zero.1 (Nat.le_zero.1 hl)
    subst hP
    exact ⟨rfl, rfl⟩
  | succ n ih =>
    intro P s hl h
    rcases P with _ | ⟨a, _ | ⟨b, _ | ⟨c, _ | ⟨d, rest⟩⟩⟩⟩
    · exact ⟨rfl, rfl⟩
    · rw [encBytes_cons, encByte_start s a h, encBytes_nil]
      simp [Shannon.encMain, Shannon.encDrain, Shannon.encDrainStep, h]
    · rw [encBytes_cons, encByte_start s a h, encBytes_cons, encByte_24 _ b rfl, encBytes_nil]
      simp [Shannon.encMain, Shannon.encDrain, Shannon.encDrainStep, h]
    · rw [encBytes_cons, encByte_start s a h, encBytes_cons, encByte_24 _ b rfl,
        encBytes_cons, encByte_16 _ c rfl, encBytes_nil]
      simp [Shannon.encMain, Shannon.encDrain, Shannon.encDrainStep, h]
    · rw [encBytes_word s h a b c d rest]
      have h2 : ((s.cycle).macFunc (toWord a b c d)).nbuf = 0 := by simp [h]
      have hl2 : rest.length ≤ n := by simp at hl; omega
      obtain ⟨ih1, ih2⟩ := ih rest ((s.cycle).macFunc (toWord a b c d)) hl2 h2
      obtain ⟨cg1, cg2⟩ := encBytes_congr rest
        ({ (s.cycle).macFunc (toWord a b c d) with mbuf := toWord a b c d })
        ((s.cycle).macFunc (toWord a b c d)) (norm_mbufSet _ _ h2)
      unfold Shannon.encMain
      simp only [macFunc_sbuf]
      simp at cg1 cg2
      simp [ih1, ih2, cg1, cg2]

theorem decMain_eq : ∀ (n : Nat) (P : List Nat) (s : Shannon), P.length ≤ n → s.nbuf = 0 →
    (Shannon.decMain s P).2 = (Shannon.decBytes s P).2 ∧
    (Shannon.decMain s P).1.norm = (Shannon.decBytes s P).1.norm := by
  intro n
  induction n with
  | zero =>
    intro P s hl h
    have hP : P = [] := List.length_eq_zero.1 (Nat.le_zero.1 hl)
    subst hP
    exact ⟨rfl, rfl⟩
  | succ n ih =>
    intro P s hl h
    rcases P with _ | ⟨a, _ | ⟨b, _ | ⟨c, _ | ⟨d, rest⟩⟩⟩⟩
    · exact ⟨rfl, rfl⟩
    · rw [decBytes_cons, decByte_start s a h, decBytes_nil]
      simp [Shannon.decMain, Shannon.decDrain, Shannon.decDrainStep, h]
    · rw [decBytes_cons, decByte_start s a h, decBytes_cons, decByte_24 _ b rfl, decBytes_nil]
      simp [Shannon.decMain, Shannon.decDrain, Shannon.decDrainStep, h]
    · rw [decBytes_cons, decByte_start s a h, decBytes_cons, decByte_24 _ b rfl,
        decBytes_cons, decByte_16 _ c rfl, decBytes_nil]
      simp [Shannon.decMain, Shannon.decDrain, Shannon.decDrainStep, h]
    · rw [decBytes_word s h a b c d rest]
      have h2 : ((s.cycle).macFunc (toWord a b c d ^^^ s.cycle.sbuf % 2 ^ 32)).nbuf = 0 := by
        simp [h]
      have hl2 : rest.length ≤ n := by simp at hl; omega
      obtain ⟨ih1, ih2⟩ := ih rest ((s.cycle).macFunc (toWord a b c d ^^^ s.cycle.sbuf % 2 ^ 32)) hl2 h2
      obtain ⟨cg1, cg2⟩ := decBytes_congr rest
        ({ (s.cycle).macFunc (toWord a b c d ^^^ s.cycle.sbuf % 2 ^ 32)
            with mbuf := toWord a b c d ^^^ s.cycle.sbuf % 2 ^ 32 })
        ((s.cycle).macFunc (toWord a b c d ^^^ s.cycle.sbuf % 2 ^ 32)) (norm_mbufSet _ _ h2)
      unfold Shannon.decMain
      simp at ih1 ih2 cg1 cg2
      simp [ih1, ih2, cg1, cg2]

theorem encrypt_eq (s : Shannon) (P : List Nat) (h : NbufInv s) :
    (s.encrypt P).2 = (Shannon.encBytes s P).2 ∧
    (s.encrypt P).1.norm = (Shannon.encBytes s P).1.norm := by
  rcases h with h | h | h | h
  · have e : s.encrypt P = Shannon.encMain s P := by
      unfold Shannon.encrypt
      simp [h]
    rw [e]
    exact encMain_eq P.length P s le_rfl h
  · rcases P with _ | ⟨b, rest⟩
    · simp [Shannon.encrypt, Shannon.encDrain, encBytes_nil, h]
    · have hd : Shannon.encDrain s (b :: rest)
          = ({ s with mbuf := s.mbuf ^^^ shl32 (b % 256) 24, nbuf := 0 },
             [(b % 256) ^^^ (shr32s s.sbuf 24 % 256)], rest) := by
        simp [Shannon.encDrain, Shannon.encDrainStep, h, encDrain_stop]
      rw [encBytes_cons, encByte_8 s b h]
      unfold Shannon.encrypt
      rw [hd]
      obtain ⟨m1, m2⟩ := encMain_eq rest.length rest
        (Shannon.macFunc { s with mbuf := s.mbuf ^^^ shl32 (b % 256) 24, nbuf := 0 }
          (s.mbuf ^^^ shl32 (b % 256) 24)) le_rfl (by simp)
      simp [h, m1, m2]
  · rcases P with _ | ⟨b, _ | ⟨c, rest⟩⟩
    · simp [Shannon.encrypt, Shannon.encDrain, encBytes_nil, h]
    · rw [encBytes_cons, encByte_16 s b h, encBytes_nil]
      simp [Shannon.encrypt, Shannon.encDrain, Shannon.encDrainStep, h]
    · have hd : Shannon.encDrain s (b :: c :: rest)
          = ({ s with mbuf := (s.mbuf ^^^ shl32 (b % 256) 16) ^^^ shl32 (c % 256) 24, nbuf := 0 },
             [(b % 256) ^^^ (shr32s s.sbuf 16 % 256), (c % 256) ^^^ (shr32s s.sbuf 24 % 256)],
             rest) := by
        simp [Shannon.encDrain, Shannon.encDrainStep, h, encDrain_stop]
      rw [encBytes_cons, encByte_16 s b h, encBytes_cons, encByte_8 _ c rfl]
      unfold Shannon.encrypt
      rw [hd]
      obtain ⟨m1, m2⟩ := encMain_eq rest.length rest
        (Shannon.macFunc { s with mbuf := (s.mbuf ^^^ shl32 (b % 256) 16) ^^^ shl32 (c % 256) 24, nbuf := 0 }
          ((s.mbuf ^^^ shl32 (b % 256) 16) ^^^ shl32 (c % 256) 24)) le_rfl (by simp)
      simp [h, m1, m2]
  · rcases P with _ | ⟨b, _ | ⟨c, _ | ⟨d, rest⟩⟩⟩
    · simp [Shannon.encrypt, Shannon.encDrain, encBytes_nil, h]
    · rw [encBytes_cons, encByte_24 s b h, encBytes_nil]
      simp [Shannon.encrypt, Shannon.encDrain, Shannon.encDrainStep, h]
    · rw [encBytes_cons, encByte_24 s b h, encBytes_cons, encByte_16 _ c rfl, encBytes_nil]
      simp [Shannon.encrypt, Shannon.encDrain, Shannon.encDrainStep, h]
    · have hd : Shannon.encDrain s (b :: c :: d :: rest)
          = ({ s with
                mbuf := ((s.mbuf ^^^ shl32 (b % 256) 8) ^^^ shl32 (c % 256) 16)
                  ^^^ shl32 (d % 256) 24, nbuf := 0 },
             [(b % 256) ^^^ (shr32s s.sbuf 8 % 256), (c % 256) ^^^ (shr32s s.sbuf 16 % 256),
              (d % 256) ^^^ (shr32s s.sbuf 24 % 256)], rest) := by
        simp [Shannon.encDrain, Shannon.encDrainStep, h, encDrain_stop]
      rw [encBytes_cons, encByte_24 s b h, encBytes_cons, encByte_16 _ c rfl,
        encBytes_cons, encByte_8 _ d rfl]
      unfold Shannon.encrypt
      rw [hd]
      obtain ⟨m1, m2⟩ := encMain_eq rest.length rest
        (Shannon.macFunc { s with
            mbuf := ((s.mbuf ^^^ shl32 (b % 256) 8) ^^^ shl32 (c % 256) 16) ^^^ shl32 (d % 256) 24, nbuf := 0 }
          (((s.mbuf ^^^ shl32 (b % 256) 8) ^^^ shl32 (c % 256) 16) ^^^ shl32 (d % 256) 24))
        le_rfl (by simp)
      simp [h, m1, m2]

theorem decrypt_eq (s : Shannon) (P : List Nat) (h : NbufInv s) :
    (s.decrypt P).2 = (Shannon.decBytes s P).2 ∧
    (s.decrypt P).1.norm = (Shannon.decBytes s P).1.norm := by
  rcases h with h | h | h | h
  · have e : s.decrypt P = Shannon.decMain s P := by
      unfold Shannon.decrypt
      simp [h]
    rw [e]
    exact decMain_eq P.length P s le_rfl h
  · rcases P with _ | ⟨b, rest⟩
    · simp [Shannon.decrypt, Shannon.decDrain, decBytes_nil, h]
    · have hd : Shannon.decDrain s (b :: rest)
          = ({ s with mbuf := s.mbuf ^^^ shl32 (((b % 256) ^^^ (shr32s s.sbuf 24 % 256)) % 256) 24, nbuf := 0 },
             [(b % 256) ^^^ (shr32s s.sbuf 24 % 256)], rest) := by
        simp [Shannon.decDrain, Shannon.decDrainStep, h, decDrain_stop]
      rw [decBytes_cons, decByte_8 s b h]
      unfold Shannon.decrypt
      rw [hd]
      obtain ⟨m1, m2⟩ := decMain_eq rest.length rest
        (Shannon.macFunc { s with
            mbuf := s.mbuf ^^^ shl32 (((b % 256) ^^^ (shr32s s.sbuf 24 % 256)) % 256) 24, nbuf := 0 }
          (s.mbuf ^^^ shl32 (((b % 256) ^^^ (shr32s s.sbuf 24 % 256)) % 256) 24)) le_rfl (by simp)
      simp [h, m1, m2]
  · rcases P with _ | ⟨b, _ | ⟨c, rest⟩⟩
    · simp [Shannon.decrypt, Shannon.decDrain, decBytes_nil, h]
    · rw [decBytes_cons, decByte_16 s b h, decBytes_nil]
      simp [Shannon.decrypt, Shannon.decDrain, Shannon.decDrainStep, h]
    · have hd : Shannon.decDrain s (b :: c :: rest)
          = ({ s with
                mbuf := (s.mbuf ^^^ shl32 (((b % 256) ^^^ (shr32s s.sbuf 16 % 256)) % 256) 16)
                  ^^^ shl32 (((c % 256) ^^^ (shr32s s.sbuf 24 % 256)) % 256) 24, nbuf := 0 },
             [(b % 256) ^^^ (shr32s s.sbuf 16 % 256), (c % 256) ^^^ (shr32s s.sbuf 24 % 256)],
             rest) := by
        simp [Shannon.decDrain, Shannon.decDrainStep, h, decDrain_stop]
      rw [decBytes_cons, decByte_16 s b h, decBytes_cons, decByte_8 _ c rfl]
      unfold Shannon.decrypt
      rw [hd]
      obtain ⟨m1, m2⟩ := decMain_eq rest.length rest
        (Shannon.macFunc { s with
            mbuf := (s.mbuf ^^^ shl32 (((b % 256) ^^^ (shr32s s.sbuf 16 % 256)) % 256) 16)
              ^^^ shl32 (((c % 256) ^^^ (shr32s s.sbuf 24 % 256)) % 256) 24, nbuf := 0 }
          ((s.mbuf ^^^ shl32 (((b % 256) ^^^ (shr32s s.sbuf 16 % 256)) % 256) 16)
            ^^^ shl32 (((c % 256) ^^^ (shr32s s.sbuf 24 % 256)) % 256) 24)) le_rfl (by simp)
      simp [h, m1, m2]
  · rcases P with _ | ⟨b, _ | ⟨c, _ | ⟨d, rest⟩⟩⟩
    · simp [Shannon.decrypt, Shannon.decDrain, decBytes_nil, h]
    · rw [decBytes_cons, decByte_24 s b h, decBytes_nil]
      simp [Shannon.decrypt, Shannon.decDrain, Shannon.decDrainStep, h]
    · rw [decBytes_cons, decByte_24 s b h, decBytes_cons, decByte_16 _ c rfl, decBytes_nil]
      simp [Shannon.decrypt, Shannon.decDrain, Shannon.decDrainStep, h]
    · have hd : Shannon.decDrain s (b :: c :: d :: rest)
          = ({ s with
                mbuf := ((s.mbuf ^^^ shl32 (((b % 256) ^^^ (shr32s s.sbuf 8 % 256)) % 256) 8)
                    ^^^ shl32 (((c % 256) ^^^ (shr32s s.sbuf 16 % 256)) % 256) 16)
                  ^^^ shl32 (((d % 256) ^^^ (shr32s s.sbuf 24 % 256)) % 256) 24, nbuf := 0 },
             [(b % 256) ^^^ (shr32s s.sbuf 8 % 256), (c % 256) ^^^ (shr32s s.sbuf 16 % 256),
              (d % 256) ^^^ (shr32s s.sbuf 24 % 256)], rest) := by
        simp [Shannon.decDrain, Shannon.decDrainStep, h, decDrain_stop]
      rw [decBytes_cons, decByte_24 s b h, decBytes_cons, decByte_16 _ c rfl,
        decBytes_cons, decByte_8 _ d rfl]
      unfold Shannon.decrypt
      rw [hd]
      obtain ⟨m1, m2⟩ := decMain_eq rest.length rest
        (Shannon.macFunc { s with
            mbuf := ((s.mbuf ^^^ shl32 (((b % 256) ^^^ (shr32s s.sbuf 8 % 256)) % 256) 8)
                ^^^ shl32 (((c % 256) ^^^ (shr32s s.sbuf 16 % 256)) % 256) 16)
              ^^^ shl32 (((d % 256) ^^^ (shr32s s.sbuf 24 % 256)) % 256) 24, nbuf := 0 }
          (((s.mbuf ^^^ shl32 (((b % 256) ^^^ (shr32s s.sbuf 8 % 256)) % 256) 8)
              ^^^ shl32 (((c % 256) ^^^ (shr32s s.sbuf 16 % 256)) % 256) 16)
            ^^^ shl32 (((d % 256) ^^^ (shr32s s.sbuf 24 % 256)) % 256) 24)) le_rfl (by simp)
      simp [h, m1, m2]

/-! ### Per-byte round trip: decrypt inverts encrypt -/

theorem dec_enc_step (s0 : Shannon) (b : Nat) (hb : b < 256) :
    Shannon.decDrainStep s0 (Shannon.encDrainStep s0 b).2 = ((Shannon.encDrainStep s0 b).1, b) := by
  have hc : (b % 256) ^^^ (shr32s s0.sbuf (32 - s0.nbuf) % 256) < 256 :=
    xor_lt_256 _ _ (Nat.mod_lt _ (by norm_num)) (Nat.mod_lt _ (by norm_num))
  have hp : (((b % 256) ^^^ (shr32s s0.sbuf (32 - s0.nbuf) % 256)) % 256)
      ^^^ (shr32s s0.sbuf (32 - s0.nbuf) % 256) = b := by
    rw [Nat.mod_eq_of_lt hc, xor_cancel_r, Nat.mod_eq_of_lt hb]
  simp only [Shannon.encDrainStep, Shannon.decDrainStep]
  rw [hp]

theorem decByte_encByte (s : Shannon) (b : Nat) (hb : b < 256) :
    s.decByte (s.encByte b).2 = ((s.encByte b).1, b) := by
  unfold Shannon.encByte Shannon.decByte
  set s0 := if s.nbuf = 0 then { s.cycle with mbuf := 0, nbuf := 32 } else s with hs0
  have step := dec_enc_step s0 b hb
  simp [step]

theorem decBytes_encBytes (P : List Nat) : ∀ s, (∀ x ∈ P, x < 256) →
    Shannon.decBytes s (Shannon.encBytes s P).2 = ((Shannon.encBytes s P).1, P) := by
  induction P with
  | nil =>
    intro s h
    simp [encBytes_nil, decBytes_nil]
  | cons b rest ih =>
    intro s h
    have hstep := decByte_encByte s b (h b (by simp))
    have hrest := ih (s.encByte b).1 (fun x hx => h x (by simp [hx]))
    show Shannon.decBytes s ((s.encByte b).2 :: (Shannon.encBytes (s.encByte b).1 rest).2)
        = ((Shannon.encBytes (s.encByte b).1 rest).1, b :: rest)
    rw [decBytes_cons, hstep]
    simp [hrest]

/-! ### The finish tag only depends on the state up to norm -/

theorem cycle_EqM (a b : Shannon) (h : EqM a b) : EqM a.cycle b.cycle := by
  obtain ⟨h1, h2, h3, h4, h5, h6⟩ := h
  unfold Shannon.cycle
  exact ⟨by simp [h1, h4], h2, h3, h4, by simp [h1, h4], h6⟩

theorem addKey_EqM (a b : Shannon) (k : Nat) (h : EqM a b) : EqM (a.addKey k) (b.addKey k) := by
  obtain ⟨h1, h2, h3, h4, h5, h6⟩ := h
  unfold Shannon.addKey
  exact ⟨by rw [h1], h2, h3, h4, h5, h6⟩

theorem diffuse_EqM (a b : Shannon) (h : EqM a b) : EqM a.diffuse b.diffuse := by
  unfold Shannon.diffuse
  have key : ∀ k (a b : Shannon), EqM a b → EqM (Shannon.cycle^[k] a) (Shannon.cycle^[k] b) := by
    intro k
    induction k with
    | zero => intro a b h; exact h
    | succ k ih =>
      intro a b h
      rw [Function.iterate_succ_apply, Function.iterate_succ_apply]
      exact ih _ _ (cycle_EqM a b h)
  exact key FOLD a b h

theorem finishOut_EqM : ∀ (n : Nat) (i : Nat) (a b : Shannon), EqM a b →
    (Shannon.finishOut a n i).2 = (Shannon.finishOut b n i).2 ∧
    EqM (Shannon.finishOut a n i).1 (Shannon.finishOut b n i).1 := by
  intro n
  induction n using Nat.strong_induction_on with
  | _ n ih =>
    intro i a b h
    have hc := cycle_EqM a b h
    match n with
    | 0 => exact ⟨rfl, h⟩
    | 1 =>
      refine ⟨?_, hc⟩
      simp only [Shannon.finishOut]
      rw [hc.2.2.2.2.1]
    | 2 =>
      refine ⟨?_, hc⟩
      simp only [Shannon.finishOut]
      rw [hc.2.2.2.2.1]
    | 3 =>
      refine ⟨?_, hc⟩
      simp only [Shannon.finishOut]
      rw [hc.2.2.2.2.1]
    | k + 4 =>
      obtain ⟨ih1, ih2⟩ := ih k (by omega) (i + 4) a.cycle b.cycle hc
      constructor
      · simp only [Shannon.finishOut]
        rw [hc.2.2.2.2.1, ih1]
      · simp only [Shannon.finishOut]
        exact ih2

theorem finish_EqM (a b : Shannon) (h : EqM a b) (h0 : a.nbuf = 0) (n : Nat) :
    (a.finish n).2 = (b.finish n).2 := by
  have hb0 : b.nbuf = 0 := by rw [← h.2.2.2.2.2, h0]
  unfold Shannon.finish
  simp only [h0, hb0, ne_eq, not_true_eq_false, if_false, ite_false]
  have s2 := cycle_EqM a b h
  have s3 := addKey_EqM a.cycle b.cycle (INITKONST ^^^ shl32 0 3) s2
  have s4 : EqM { a.cycle.addKey (INITKONST ^^^ shl32 0 3) with nbuf := 0 }
      { b.cycle.addKey (INITKONST ^^^ shl32 0 3) with nbuf := 0 } := by
    obtain ⟨g1, g2, g3, g4, g5, g6⟩ := s3
    exact ⟨g1, g2, g3, g4, g5, rfl⟩
  have s5 : EqM { ({ a.cycle.addKey (INITKONST ^^^ shl32 0 3) with nbuf := 0 } : Shannon) with
        R := List.zipWith (· ^^^ ·)
          ({ a.cycle.addKey (INITKONST ^^^ shl32 0 3) with nbuf := 0 } : Shannon).R
          ({ a.cycle.addKey (INITKONST ^^^ shl32 0 3) with nbuf := 0 } : Shannon).CRC }
      { ({ b.cycle.addKey (INITKONST ^^^ shl32 0 3) with nbuf := 0 } : Shannon) with
        R := List.zipWith (· ^^^ ·)
          ({ b.cycle.addKey (INITKONST ^^^ shl32 0 3) with nbuf := 0 } : Shannon).R
          ({ b.cycle.addKey (INITKONST ^^^ shl32 0 3) with nbuf := 0 } : Shannon).CRC } := by
    obtain ⟨g1, g2, g3, g4, g5, g6⟩ := s4
    exact ⟨by rw [g1, g2], g2, g3, g4, g5, g6⟩
  have s6 := diffuse_EqM _ _ s5
  exact (finishOut_EqM n 0 _ _ s6).1

theorem finish_mbufSet (s : Shannon) (m : Nat) (h : s.nbuf = 0) (n : Nat) :
    (({ s with mbuf := m } : Shannon).finish n).2 = (s.finish n).2 :=
  finish_EqM { s with mbuf := m } s ⟨rfl, rfl, rfl, rfl, rfl, rfl⟩ h n

theorem finish_congr (a b : Shannon) (h : a.norm = b.norm) (n : Nat) :
    (a.finish n).2 = (b.finish n).2 := by
  by_cases h0 : a.nbuf = 0
  · have hb0 : b.nbuf = 0 := by
      have ha := norm_nbuf a
      have hbn := norm_nbuf b
      rw [h] at ha
      omega
    calc (a.finish n).2 = (({ a with mbuf := 0 } : Shannon).finish n).2 :=
          (finish_mbufSet a 0 h0 n).symm
      _ = (({ b with mbuf := 0 } : Shannon).finish n).2 := by
          rw [← norm_of_eq a h0, ← norm_of_eq b hb0, h]
      _ = (b.finish n).2 := finish_mbufSet b 0 hb0 n
  · have hb0 : b.nbuf ≠ 0 := by
      have ha := norm_nbuf a
      have hbn := norm_nbuf b
      rw [h] at ha
      omega
    have hab : a = b := by
      rw [← norm_of_ne a h0, h, norm_of_ne b hb0]
    rw [hab]

/-! ### Chunked encryption -/

theorem encrypt_NbufInv (s : Shannon) (P : List Nat) (h : NbufInv s) :
    NbufInv (s.encrypt P).1 := by
  have h2 := encBytes_NbufInv P s h
  have h3 := (encrypt_eq s P h).2
  have hnb : (s.encrypt P).1.nbuf = (Shannon.encBytes s P).1.nbuf := by
    rw [← norm_nbuf, h3, norm_nbuf]
  unfold NbufInv at *
  omega

theorem decrypt_NbufInv (s : Shannon) (P : List Nat) (h : NbufInv s) :
    NbufInv (s.decrypt P).1 := by
  have h2 := decBytes_NbufInv P s h
  have h3 := (decrypt_eq s P h).2
  have hnb : (s.decrypt P).1.nbuf = (Shannon.decBytes s P).1.nbuf := by
    rw [← norm_nbuf, h3, norm_nbuf]
  unfold NbufInv at *
  omega

theorem encryptChunks_eq (cs : List (List Nat)) : ∀ s, NbufInv s →
    (Shannon.encryptChunks s cs).2 = (Shannon.encBytes s cs.flatten).2 ∧
    (Shannon.encryptChunks s cs).1.norm = (Shannon.encBytes s cs.flatten).1.norm := by
  induction cs with
  | nil =>
    intro s h
    simp [Shannon.encryptChunks, encBytes_nil]
  | cons c cs ih =>
    intro s h
    obtain ⟨e1, e2⟩ := encrypt_eq s c h
    obtain ⟨f1, f2⟩ := ih (s.encrypt c).1 (encrypt_NbufInv s c h)
    obtain ⟨g1, g2⟩ := encBytes_congr cs.flatten (s.encrypt c).1 (Shannon.encBytes s c).1 e2
    have app := encBytes_append c cs.flatten s
    have hj : (c :: cs).flatten = c ++ cs.flatten := rfl
    constructor
    · show (s.encrypt c).2 ++ (Shannon.encryptChunks (s.encrypt c).1 cs).2 = _
      rw [f1, g1, e1, hj, app]
    · show (Shannon.encryptChunks (s.encrypt c).1 cs).1.norm = _
      rw [f2, g2, hj, app]

/-! ### nbuf bookkeeping for stream, macOnly and finish -/

theorem streamDrain_nbuf (P : List Nat) : ∀ s : Shannon, s.nbuf % 8 = 0 →
    (Shannon.streamDrain s P).1.nbuf % 8 = 0 ∧
    (Shannon.streamDrain s P).1.nbuf ≤ s.nbuf ∧
    (P = [] ∨ s.nbuf = 0 ∨ (Shannon.streamDrain s P).1.nbuf + 8 ≤ s.nbuf) := by
  induction P with
  | nil =>
    intro s h1
    exact ⟨h1, le_rfl, Or.inl rfl⟩
  | cons b rest ih =>
    intro s h1
    by_cases h : s.nbuf = 0
    · simp [Shannon.streamDrain, h, h1]
    · obtain ⟨g1, g2, g3⟩ := ih { s with sbuf := shr32s s.sbuf 8, nbuf := s.nbuf - 8 }
        (by simp; omega)
      simp only [Shannon.streamDrain, Shannon.streamStep, h, if_neg, ite_false]
      simp at g2
      refine ⟨g1, by omega, Or.inr (Or.inr (by omega))⟩

theorem macDrain_nbuf (P : List Nat) : ∀ s : Shannon, s.nbuf % 8 = 0 →
    (Shannon.macDrain s P).1.nbuf % 8 = 0 ∧
    (Shannon.macDrain s P).1.nbuf ≤ s.nbuf ∧
    (P = [] ∨ s.nbuf = 0 ∨ (Shannon.macDrain s P).1.nbuf + 8 ≤ s.nbuf) := by
  induction P with
  | nil =>
    intro s h1
    exact ⟨h1, le_rfl, Or.inl rfl⟩
  | cons b rest ih =>
    intro s h1
    by_cases h : s.nbuf = 0
    · simp [Shannon.macDrain, h, h1]
    · obtain ⟨g1, g2, g3⟩ := ih (Shannon.macStep s b) (by simp [Shannon.macStep]; omega)
      simp only [Shannon.macDrain, h, if_neg, ite_false]
      have hs : (Shannon.macStep s b).nbuf = s.nbuf - 8 := rfl
      rw [hs] at g2
      refine ⟨g1, by omega, Or.inr (Or.inr (by omega))⟩

theorem streamMain_NbufInv : ∀ (n : Nat) (P : List Nat) (s : Shannon), P.length ≤ n →
    NbufInv s → NbufInv (Shannon.streamMain s P).1 := by
  intro n
  induction n with
  | zero =>
    intro P s hl h
    have hP : P = [] := List.length_eq_zero.1 (Nat.le_zero.1 hl)
    subst hP
    exact h
  | succ n ih =>
    intro P s hl h
    have key : ∀ (l : List Nat), l ≠ [] →
        NbufInv (Shannon.streamDrain { s.cycle with nbuf := 32 } l).1 := by
      intro l hne
      obtain ⟨g1, g2, g3⟩ := streamDrain_nbuf l { s.cycle with nbuf := 32 } (by simp)
      have hn : ({ s.cycle with nbuf := 32 } : Shannon).nbuf = 32 := rfl
      rw [hn] at g2 g3
      rcases g3 with g | g | g
      · exact absurd g hne
      · omega
      · unfold NbufInv
        omega
    rcases P with _ | ⟨a, _ | ⟨b, _ | ⟨c, _ | ⟨d, rest⟩⟩⟩⟩
    · exact h
    · rw [show Shannon.streamMain s [a]
          = ((Shannon.streamDrain { s.cycle with nbuf := 32 } [a]).1,
             (Shannon.streamDrain { s.cycle with nbuf := 32 } [a]).2.1) from by
        simp only [Shannon.streamMain]]
      exact key [a] (by simp)
    · rw [show Shannon.streamMain s [a, b]
          = ((Shannon.streamDrain { s.cycle with nbuf := 32 } [a, b]).1,
             (Shannon.streamDrain { s.cycle with nbuf := 32 } [a, b]).2.1) from by
        simp only [Shannon.streamMain]]
      exact key [a, b] (by simp)
    · rw [show Shannon.streamMain s [a, b, c]
          = ((Shannon.streamDrain { s.cycle with nbuf := 32 } [a, b, c]).1,
             (Shannon.streamDrain { s.cycle with nbuf := 32 } [a, b, c]).2.1) from by
        simp only [Shannon.streamMain]]
      exact key [a, b, c] (by simp)
    · have h2 : NbufInv s.cycle := by unfold NbufInv at *; simp [h]
      have hl2 : rest.length ≤ n := by simp at hl; omega
      rw [show Shannon.streamMain s (a :: b :: c :: d :: rest)
          = ((Shannon.streamMain s.cycle rest).1,
             ((a % 256) ^^^ (s.cycle.sbuf % 256))
              :: ((b % 256) ^^^ (shr32s s.cycle.sbuf 8 % 256))
              :: ((c % 256) ^^^ (shr32s s.cycle.sbuf 16 % 256))
              :: ((d % 256) ^^^ (shr32s s.cycle.sbuf 24 % 256))
              :: (Shannon.streamMain s.cycle rest).2) from by
        simp only [Shannon.streamMain]]
      exact ih rest s.cycle hl2 h2

theorem macMain_NbufInv : ∀ (n : Nat) (P : List Nat) (s : Shannon), P.length ≤ n →
    NbufInv s → NbufInv (Shannon.macMain s P) := by
  intro n
  induction n with
  | zero =>
    intro P s hl h
    have hP : P = [] := List.length_eq_zero.1 (Nat.le_zero.1 hl)
    subst hP
    exact h
  | succ n ih =>
    intro P s hl h
    have key : ∀ (l : List Nat), l ≠ [] →
        NbufInv (Shannon.macDrain { s.cycle with mbuf := 0, nbuf := 32 } l).1 := by
      intro l hne
      obtain ⟨g1, g2, g3⟩ := macDrain_nbuf l { s.cycle with mbuf := 0, nbuf := 32 } (by simp)
      have hn : ({ s.cycle with mbuf := 0, nbuf := 32 } : Shannon).nbuf = 32 := rfl
      rw [hn] at g2 g3
      rcases g3 with g | g | g
      · exact absurd g hne
      · omega
      · unfold NbufInv
        omega
    rcases P with _ | ⟨a, _ | ⟨b, _ | ⟨c, _ | ⟨d, rest⟩⟩⟩⟩
    · exact h
    · exact key [a] (by simp)
    · exact key [a, b] (by simp)
    · exact key [a, b, c] (by simp)
    · have h2 : NbufInv ((s.cycle).macFunc (toWord a b c d)) := by
        unfold NbufInv at *
        simp [h]
      have hl2 : rest.length ≤ n := by simp at hl; omega
      exact ih rest _ hl2 h2

theorem stream_NbufInv (s : Shannon) (P : List Nat) (h : NbufInv s) :
    NbufInv (s.stream P).1 := by
  unfold Shannon.stream
  apply streamMain_NbufInv (Shannon.streamDrain s P).2.2.length _ _ le_rfl
  obtain ⟨g1, g2, g3⟩ := streamDrain_nbuf P s (by unfold NbufInv at h; omega)
  unfold NbufInv at h ⊢
  omega

theorem macOnly_NbufInv (s : Shannon) (P : List Nat) (h : NbufInv s) :
    NbufInv (s.macOnly P) := by
  unfold Shannon.macOnly
  by_cases h0 : s.nbuf = 0
  · simp [h0]
    exact macMain_NbufInv P.length P s le_rfl h
  · simp [h0]
    obtain ⟨g1, g2, g3⟩ := macDrain_nbuf P s (by unfold NbufInv at h; omega)
    by_cases h1 : (Shannon.macDrain s P).1.nbuf = 0
    · simp [h1]
      apply macMain_NbufInv (Shannon.macDrain s P).2.length _ _ le_rfl
      unfold NbufInv
      simp [h1]
    · simp [h1]
      unfold NbufInv at h ⊢
      omega

theorem finishOut_nbuf : ∀ (n : Nat) (i : Nat) (s : Shannon),
    (Shannon.finishOut s n i).1.nbuf = s.nbuf := by
  intro n
  induction n using Nat.strong_induction_on with
  | _ n ih =>
    intro i s
    match n with
    | 0 => rfl
    | 1 => rfl
    | 2 => rfl
    | 3 => rfl
    | k + 4 =>
      show (Shannon.finishOut s.cycle k (i + 4)).1.nbuf = s.nbuf
      rw [ih k (by omega) (i + 4) s.cycle, cycle_nbuf]

theorem diffuse_nbuf (s : Shannon) : s.diffuse.nbuf = s.nbuf := by
  unfold Shannon.diffuse
  have key : ∀ k (s : Shannon), (Shannon.cycle^[k] s).nbuf = s.nbuf := by
    intro k
    induction k with
    | zero => intro s; rfl
    | succ k ih =>
      intro s
      rw [Function.iterate_succ_apply, ih, cycle_nbuf]
  exact key FOLD s

theorem finish_nbuf (s : Shannon) (n : Nat) : (s.finish n).1.nbuf = 0 := by
  unfold Shannon.finish
  rw [finishOut_nbuf, diffuse_nbuf]

/-! ### stream leaves the CRC register and the MAC buffer unchanged -/

theorem streamDrain_frame (P : List Nat) : ∀ s : Shannon,
    (Shannon.streamDrain s P).1.CRC = s.CRC ∧ (Shannon.streamDrain s P).1.mbuf = s.mbuf := by
  induction P with
  | nil =>
    intro s
    exact ⟨rfl, rfl⟩
  | cons b rest ih =>
    intro s
    by_cases h : s.nbuf = 0
    · simp [Shannon.streamDrain, h]
    · simp only [Shannon.streamDrain, Shannon.streamStep, h, if_neg, ite_false]
      exact ih _

theorem streamMain_frame : ∀ (n : Nat) (P : List Nat) (s : Shannon), P.length ≤ n →
    (Shannon.streamMain s P).1.CRC = s.CRC ∧ (Shannon.streamMain s P).1.mbuf = s.mbuf := by
  intro n
  induction n with
  | zero =>
    intro P s hl
    have hP : P = [] := List.length_eq_zero.1 (Nat.le_zero.1 hl)
    subst hP
    exact ⟨rfl, rfl⟩
  | succ n ih =>
    intro P s hl
    have key : ∀ (l : List Nat),
        (Shannon.streamDrain { s.cycle with nbuf := 32 } l).1.CRC = s.CRC ∧
        (Shannon.streamDrain { s.cycle with nbuf := 32 } l).1.mbuf = s.mbuf := by
      intro l
      obtain ⟨g1, g2⟩ := streamDrain_frame l { s.cycle with nbuf := 32 }
      simp at g1 g2
      exact ⟨g1, g2⟩
    rcases P with _ | ⟨a, _ | ⟨b, _ | ⟨c, _ | ⟨d, rest⟩⟩⟩⟩
    · exact ⟨rfl, rfl⟩
    · rw [show Shannon.streamMain s [a]
          = ((Shannon.streamDrain { s.cycle with nbuf := 32 } [a]).1,
             (Shannon.streamDrain { s.cycle with nbuf := 32 } [a]).2.1) from by
        simp only [Shannon.streamMain]]
      exact key [a]
    · rw [show Shannon.streamMain s [a, b]
          = ((Shannon.streamDrain { s.cycle with nbuf := 32 } [a, b]).1,
             (Shannon.streamDrain { s.cycle with nbuf := 32 } [a, b]).2.1) from by
        simp only [Shannon.streamMain]]
      exact key [a, b]
    · rw [show Shannon.streamMain s [a, b, c]
          = ((Shannon.streamDrain { s.cycle with nbuf := 32 } [a, b, c]).1,
             (Shannon.streamDrain { s.cycle with nbuf := 32 } [a, b, c]).2.1) from by
        simp only [Shannon.streamMain]]
      exact key [a, b, c]
    · have hl2 : rest.length ≤ n := by simp at hl; omega
      obtain ⟨g1, g2⟩ := ih rest s.cycle hl2
      simp at g1 g2
      rw [show Shannon.streamMain s (a :: b :: c :: d :: rest)
          = ((Shannon.streamMain s.cycle rest).1,
             ((a % 256) ^^^ (s.cycle.sbuf % 256))
              :: ((b % 256) ^^^ (shr32s s.cycle.sbuf 8 % 256))
              :: ((c % 256) ^^^ (shr32s s.cycle.sbuf 16 % 256))
              :: ((d % 256) ^^^ (shr32s s.cycle.sbuf 24 % 256))
              :: (Shannon.streamMain s.cycle rest).2) from by
        simp only [Shannon.streamMain]]
      exact ⟨g1, g2⟩

theorem stream_frame (s : Shannon) (P : List Nat) :
    (s.stream P).1.CRC = s.CRC ∧ (s.stream P).1.mbuf = s.mbuf := by
  unfold Shannon.stream
  obtain ⟨d1, d2⟩ := streamDrain_frame P s
  obtain ⟨m1, m2⟩ := streamMain_frame (Shannon.streamDrain s P).2.2.length
    (Shannon.streamDrain s P).2.2 (Shannon.streamDrain s P).1 le_rfl
  exact ⟨by rw [m1, d1], by rw [m2, d2]⟩

/-! ### Zero-length inputs are complete no-ops -/

theorem stream_nil (s : Shannon) : s.stream [] = (s, []) := rfl

theorem macOnly_nil (s : Shannon) : s.macOnly [] = s := by
  unfold Shannon.macOnly Shannon.macDrain Shannon.macMain
  by_cases h : s.nbuf = 0 <;> simp [h]

theorem encrypt_nil (s : Shannon) : s.encrypt [] = (s, []) := by
  unfold Shannon.encrypt Shannon.encDrain Shannon.encMain
  by_cases h : s.nbuf = 0 <;> simp [h]

theorem decrypt_nil (s : Shannon) : s.decrypt [] = (s, []) := by
  unfold Shannon.decrypt Shannon.decDrain Shannon.decMain
  by_cases h : s.nbuf = 0 <;> simp [h]

theorem encryptOut_nil (s : Shannon) (out : List Nat) : s.encryptOut [] out = (s, out) := by
  unfold Shannon.encryptOut Shannon.encOutDrain Shannon.encOutMain
  by_cases h : s.nbuf = 0 <;> simp [h]

theorem decryptOut_nil (s : Shannon) (out : List Nat) : s.decryptOut [] out = (s, [], out) := by
  unfold Shannon.decryptOut Shannon.decOutDrain Shannon.decOutMain
  by_cases h : s.nbuf = 0 <;> simp [h]

/-! ### The nbuf invariant holds after every public operation -/

theorem runOp_NbufInv (s : Shannon) (op : EngineOp) (h : NbufInv s) : NbufInv (runOp s op) := by
  cases op with
  | doKey k => exact Or.inl rfl
  | doNonce iv => exact Or.inl rfl
  | doNonce32 v => exact Or.inl rfl
  | doStream b => exact stream_NbufInv s b h
  | doMacOnly b => exact macOnly_NbufInv s b h
  | doEncrypt b => exact encrypt_NbufInv s b h
  | doDecrypt b => exact decrypt_NbufInv s b h
  | doFinish n => exact Or.inl (finish_nbuf s n)

theorem runOps_NbufInv (l : List EngineOp) : ∀ s, NbufInv s → NbufInv (runOps s l) := by
  induction l with
  | nil =>
    intro s h
    exact h
  | cons op rest ih =>
    intro s h
    exact ih _ (runOp_NbufInv s op h)

/-! ## The claims -/

/-- C1: for a fresh engine keyed with the 10 bytes 65 87 d8 8f 6c 32 9d 8a
e4 6b and no nonce set, encrypt applied to the 11 UTF-8 bytes of
"Hello World" returns the ciphertext 94 81 e5 a9 5f 93 5e cb 6c b5 24, and
a subsequent finish with a 16-byte buffer returns the tag
43 23 86 24 f3 c9 0c 58 79 f4 d3 ef 83 98 2e 4e. -/
theorem c1_test_vector :
    ((initEngine testKey none).encrypt helloBytes).2
      = [0x94, 0x81, 0xe5, 0xa9, 0x5f, 0x93, 0x5e, 0xcb, 0x6c, 0xb5, 0x24] ∧
    (Shannon.finish ((initEngine testKey none).encrypt helloBytes).1 16).2
      = [0x43, 0x23, 0x86, 0x24, 0xf3, 0xc9, 0x0c, 0x58,
         0x79, 0xf4, 0xd3, 0xef, 0x83, 0x98, 0x2e, 0x4e] := by
  decide

/-- C2: for every key K, optional nonce IV, and plaintext P of bytes, a
fresh engine keyed (and nonced) encrypts P; a second identical engine
decrypts the ciphertext back to P, and the two finish tags of any equal
requested length are equal. -/
theorem c2_roundtrip (K P : List Nat) (IV : Option (List Nat)) (n : Nat)
    (hP : P.all (fun b => decide (b < 256)) = true) :
    ((initEngine K IV).decrypt ((initEngine K IV).encrypt P).2).2 = P ∧
    (Shannon.finish ((initEngine K IV).decrypt ((initEngine K IV).encrypt P).2).1 n).2
      = (Shannon.finish ((initEngine K IV).encrypt P).1 n).2 := by
  have hinv : NbufInv (initEngine K IV) := Or.inl (by cases IV <;> rfl)
  have hP2 : ∀ x ∈ P, x < 256 := by
    intro x hx
    exact of_decide_eq_true (List.all_eq_true.1 hP x hx)
  obtain ⟨e1, e2⟩ := encrypt_eq (initEngine K IV) P hinv
  obtain ⟨d1, d2⟩ := decrypt_eq (initEngine K IV) ((initEngine K IV).encrypt P).2 hinv
  have rt := decBytes_encBytes P (initEngine K IV) hP2
  constructor
  · rw [d1, e1, rt]
  · refine finish_congr _ _ ?_ n
    rw [d2, e1, rt, e2]

theorem c2_roundtrip_witness :
    ((initEngine testKey none).decrypt ((initEngine testKey none).encrypt helloBytes).2).2
      = helloBytes ∧
    (Shannon.finish
        ((initEngine testKey none).decrypt ((initEngine testKey none).encrypt helloBytes).2).1
        16).2
      = (Shannon.finish ((initEngine testKey none).encrypt helloBytes).1 16).2 :=
  c2_roundtrip testKey helloBytes none 16 (by decide)

/-- C3: for every key, optional nonce, and split of a plaintext into
consecutive chunks, feeding the chunks through successive encrypt calls
yields the same concatenated ciphertext, and the same finish tag of any
fixed length, as one encrypt call over the whole plaintext on an
identically keyed and nonced engine. -/
theorem c3_chunking (K : List Nat) (IV : Option (List Nat)) (cs : List (List Nat)) (n : Nat) :
    (Shannon.encryptChunks (initEngine K IV) cs).2
      = ((initEngine K IV).encrypt cs.flatten).2 ∧
    (Shannon.finish (Shannon.encryptChunks (initEngine K IV) cs).1 n).2
      = (Shannon.finish ((initEngine K IV).encrypt cs.flatten).1 n).2 := by
  have hinv : NbufInv (initEngine K IV) := Or.inl (by cases IV <;> rfl)
  obtain ⟨e1, e2⟩ := encryptChunks_eq cs (initEngine K IV) hinv
  obtain ⟨f1, f2⟩ := encrypt_eq (initEngine K IV) cs.flatten hinv
  constructor
  · rw [e1, f1]
  · refine finish_congr _ _ ?_ n
    rw [e2, f2]

/-- C4: the claim says a trailing tag byte j (j = 0, 1, 2 within a partial
final word) equals byte j of the last streamWord.  The code computes every
trailing byte as (sbuf >> (i * 8)) & 0xFF where i is the absolute byte
index, a multiple of 4, so every trailing byte equals byte 0 of that word.
On the repository key and plaintext a 6-byte finish ends f3 f3 (byte 0
twice); an 8-byte finish of the identical state sequence shows byte 1 of
that same streamWord is c9 ≠ f3, which is what tag byte 5 of the 6-byte
finish would be under the claim. -/
theorem c4_finish_partial :
    (Shannon.finish ((initEngine testKey none).encrypt helloBytes).1 6).2
      = [0x43, 0x23, 0x86, 0x24, 0xf3, 0xf3] ∧
    (Shannon.finish ((initEngine testKey none).encrypt helloBytes).1 8).2
      = [0x43, 0x23, 0x86, 0x24, 0xf3, 0xc9, 0x0c, 0x58] := by
  decide

/-- C5: the claim says a distinct output buffer receives exactly the bytes
of the in-place call and the input buffer is unchanged.  In the drain and
trailing paths the code XORs the keystream into the prior content of the
output cell instead of combining it with the input cell, and the trailing
path of decrypt writes the input buffer: on a fresh engine (nbuf = 0,
one-byte input, keystream byte dc) in-place encrypt of 48 gives 94, but
with a distinct zeroed output buffer encrypt gives dc; in-place decrypt of
94 gives 48, but with a distinct zeroed output buffer the output cell
stays 00 and the input buffer cell becomes 48. -/
theorem c5_distinct_output :
    ((initEngine testKey none).encrypt [0x48]).2 = [0x94] ∧
    ((initEngine testKey none).encryptOut [0x48] [0x00]).2 = [0xdc] ∧
    ((initEngine testKey none).decrypt [0x94]).2 = [0x48] ∧
    ((initEngine testKey none).decryptOut [0x94] [0x00]).2.2 = [0x00] ∧
    ((initEngine testKey none).decryptOut [0x94] [0x00]).2.1 = [0x48] := by
  decide

/-- C6: one cycle computes t = R[12] xor R[13] xor konst, replaces t by
sbox t xor rotl(R[0], 1), shifts every word down one slot with t the new
R[15], computes r = sbox2 (R[2] xor R[15]) on the shifted register, XORs r
into R[0], and sets streamWord = r xor R[8] xor R[12]; sbox uses rotation
pairs 5, 7 then 19, 22 and sbox2 the pairs 7, 22 then 5, 19, all in 32-bit
wraparound arithmetic. -/
theorem c6_cycle_structure (s : Shannon)
    (r0 r1 r2 r3 r4 r5 r6 r7 r8 r9 r10 r11 r12 r13 r14 r15 : Nat)
    (h : s.R = [r0, r1, r2, r3, r4, r5, r6, r7, r8, r9, r10, r11, r12, r13, r14, r15]) :
    (s.cycle.R =
        [r1 ^^^ sbox2 (r3 ^^^ (sbox (r12 ^^^ r13 ^^^ s.konst) ^^^ rotateLeft r0 1)),
         r2, r3, r4, r5, r6, r7, r8, r9, r10, r11, r12, r13, r14, r15,
         sbox (r12 ^^^ r13 ^^^ s.konst) ^^^ rotateLeft r0 1] ∧
      s.cycle.sbuf
        = sbox2 (r3 ^^^ (sbox (r12 ^^^ r13 ^^^ s.konst) ^^^ rotateLeft r0 1)) ^^^ r9 ^^^ r13) ∧
    (∀ x, sbox x = (x ^^^ (rotateLeft x 5 ||| rotateLeft x 7)) ^^^
        (rotateLeft (x ^^^ (rotateLeft x 5 ||| rotateLeft x 7)) 19 |||
         rotateLeft (x ^^^ (rotateLeft x 5 ||| rotateLeft x 7)) 22)) ∧
    (∀ x, sbox2 x = (x ^^^ (rotateLeft x 7 ||| rotateLeft x 22)) ^^^
        (rotateLeft (x ^^^ (rotateLeft x 7 ||| rotateLeft x 22)) 5 |||
         rotateLeft (x ^^^ (rotateLeft x 7 ||| rotateLeft x 22)) 19)) := by
  obtain ⟨R, CRC, initR, konst, sbuf, mbuf, nbuf⟩ := s
  replace h : R = [r0, r1, r2, r3, r4, r5, r6, r7, r8, r9, r10, r11, r12, r13, r14, r15] := h
  subst h
  refine ⟨⟨rfl, rfl⟩, fun x => rfl, fun x => rfl⟩

theorem c6_cycle_structure_witness :
    Shannon.new.cycle.R = [0, 0, 0, 0, 0, 0, 0, 0, 0, 0, 0, 0, 0, 0, 0, 0] ∧
    Shannon.new.cycle.sbuf = 0 :=
  (c6_cycle_structure Shannon.new 0 0 0 0 0 0 0 0 0 0 0 0 0 0 0 0 rfl).1

/-- C7: starting from a fresh engine, after any sequence of completed
public operations nbuf is a multiple of 8 and at most 32, and from any
such reached state splitting further encrypt input across successive calls
leaves the ciphertext and any subsequent finish tag unchanged. -/
theorem c7_nbuf_invariant (ops : List EngineOp) :
    (runOps Shannon.new ops).nbuf % 8 = 0 ∧ (runOps Shannon.new ops).nbuf ≤ 32 ∧
    ∀ (cs : List (List Nat)) (n : Nat),
      (Shannon.encryptChunks (runOps Shannon.new ops) cs).2
        = ((runOps Shannon.new ops).encrypt cs.flatten).2 ∧
      (Shannon.finish (Shannon.encryptChunks (runOps Shannon.new ops) cs).1 n).2
        = (Shannon.finish ((runOps Shannon.new ops).encrypt cs.flatten).1 n).2 := by
  have hinv : NbufInv (runOps Shannon.new ops) :=
    runOps_NbufInv ops Shannon.new (Or.inl rfl)
  refine ⟨?_, ?_, ?_⟩
  · rcases hinv with h | h | h | h <;> rw [h]
  · rcases hinv with h | h | h | h <;> rw [h] <;> norm_num
  · intro cs n
    obtain ⟨e1, e2⟩ := encryptChunks_eq cs (runOps Shannon.new ops) hinv
    obtain ⟨f1, f2⟩ := encrypt_eq (runOps Shannon.new ops) cs.flatten hinv
    constructor
    · rw [e1, f1]
    · refine finish_congr _ _ ?_ n
      rw [e2, f2]

/-- C8: stream leaves CRC and mbuf unchanged for every input and every
state; the end-of-input perturbation of finish (one cycle followed by
addKey of INITKONST xor (nbuf << 3)) never changes CRC; and macFunc
changes CRC exactly as crcFunc does on the same input word. -/
theorem c8_crc_frame (s : Shannon) (P : List Nat) (i : Nat) :
    ((s.stream P).1.CRC = s.CRC ∧ (s.stream P).1.mbuf = s.mbuf) ∧
    (s.cycle.addKey (INITKONST ^^^ shl32 s.nbuf 3)).CRC = s.CRC ∧
    (s.macFunc i).CRC = (s.crcFunc i).CRC :=
  ⟨stream_frame s P, rfl, rfl⟩

/-- C9: nonce32 v equals nonce on the 4 big-endian bytes of v; the word
the key loader assembles from those 4 bytes little-endian is the
byte-reversal of v; and addKey XORs its word into register slot 13. -/
theorem c9_nonce32_refinement (s : Shannon) (v : Nat) :
    s.nonce32 v
      = s.nonce [shr32s v 24 % 256, shr32s v 16 % 256, shr32s v 8 % 256, v % 256] ∧
    toWord (shr32s v 24 % 256) (shr32s v 16 % 256) (shr32s v 8 % 256) (v % 256)
      = bswap32Spec v ∧
    ∀ (t : Shannon) (k : Nat),
      (t.addKey k).R = t.R.set 13 (t.R.getD 13 0 ^^^ (k % 2 ^ 32)) := by
  refine ⟨rfl, ?_, fun t k => rfl⟩
  rw [toWord_eq, shr32s_mod256 v 24 (by norm_num), shr32s_mod256 v 16 (by norm_num),
    shr32s_mod256 v 8 (by norm_num)]
  unfold bswap32Spec
  omega

/-- C10: a zero-length input is a complete no-op for stream, macOnly,
encrypt and decrypt: the state is unchanged in every field (also when
nbuf is nonzero on entry), the returned in-place buffer is empty, and a
distinct output buffer keeps its contents. -/
theorem c10_empty_noop (s : Shannon) (out : List Nat) :
    s.stream [] = (s, []) ∧ s.macOnly [] = s ∧ s.encrypt [] = (s, []) ∧
    s.decrypt [] = (s, []) ∧ s.encryptOut [] out = (s, out) ∧
    s.decryptOut [] out = (s, [], out) :=
  ⟨stream_nil s, macOnly_nil s, encrypt_nil s, decrypt_nil s,
   encryptOut_nil s out, decryptOut_nil s out⟩

end ShannonES
